import Mathlib

/-!
Verification of the team-name resolution, caching and roster subsystem of
the Nest repository (src/server).  The Python sources are shallowly
embedded over `List Char`; regular-expression searches are embedded as
explicit left-to-right scanners with Python `re` semantics (leftmost
match, alternation order, greedy repetition, word boundaries), restricted
to ASCII inputs.
-/

/-- ASCII whitespace, as recognised by Python `str.strip`, `str.split` and
the regex class for whitespace on the inputs of interest. -/
def isSpace (c : Char) : Bool :=
  c = ' ' || c = '\t' || c = '\n' || c = '\r'

/-- Python regex word character (the word-boundary test), ASCII part:
letters, digits and underscore. -/
def isWordChar (c : Char) : Bool :=
  c.isAlphanum || c = '_'

/-- String literal as a character list. -/
def str (s : String) : List Char := s.data

/-- `isPrefixList p s` holds when `p` is a prefix of `s`. -/
def isPrefixList : List Char → List Char → Bool
  | [], _ => true
  | _ :: _, [] => false
  | a :: as, b :: bs => a = b && isPrefixList as bs

/-- Substring test: Python `needle in hay`. -/
def containsSub (needle : List Char) : List Char → Bool
  | [] => isPrefixList needle []
  | c :: cs => isPrefixList needle (c :: cs) || containsSub needle cs

/-- Python `str.strip()`. -/
def strip (s : List Char) : List Char :=
  ((s.dropWhile isSpace).reverse.dropWhile isSpace).reverse

/-- The tag removed by `parse_team_name`: one leading literal tag
followed by optional whitespace (`re.sub` anchored at the start). -/
def stripRep (s : List Char) : List Char :=
  if isPrefixList (str "[Rep]") s then (s.drop 5).dropWhile isSpace else s

/-- Python `str.split()` (whitespace-separated words), accumulator form.
The accumulator holds the current word reversed. -/
def wordsAux : List Char → List Char → List (List Char)
  | [], acc => if acc.isEmpty then [] else [acc.reverse]
  | c :: cs, acc =>
    if isSpace c then
      if acc.isEmpty then wordsAux cs [] else acc.reverse :: wordsAux cs []
    else wordsAux cs (c :: acc)

/-- The token `Senior` of the division pattern. -/
def seniorTok : List Char := str "Senior"

/-- The word-boundary test after a match that ended in a word character:
succeeds at end of string or before a non-word character. -/
def endBoundaryB (s : List Char) : Bool :=
  match s.head? with
  | none => true
  | some c => !isWordChar c

/-- One position of the division search (pattern: word boundary, then
digits followed by `U` or the literal `Senior`, then word boundary).  `b`
is the boundary state before this position (true at string start or after
a non-word character).  Python tries the digit alternative first; the
greedy digit run admits no useful backtracking because a shorter run is
followed by a digit, never by `U`. -/
def divMatchAt (b : Bool) (s : List Char) : Option (List Char) :=
  if b then
    if !(s.takeWhile Char.isDigit).isEmpty
        && ((s.drop (s.takeWhile Char.isDigit).length).head? == some 'U')
        && endBoundaryB (s.drop ((s.takeWhile Char.isDigit).length + 1)) then
      some (s.takeWhile Char.isDigit ++ ['U'])
    else if isPrefixList seniorTok s && endBoundaryB (s.drop 6) then
      some seniorTok
    else none
  else none

/-- The closed level vocabulary in the alternation order of the source
pattern: AAA, AA, A, B, C, D, DS, HS. -/
def levelToks : List (List Char) :=
  [str "AAA", str "AA", str "A", str "B", str "C", str "D", str "DS", str "HS"]

/-- One position of the level search: the first alternative (in pattern
order) that is a prefix here and is followed by a word boundary. -/
def levelMatchAt (b : Bool) (s : List Char) : Option (List Char) :=
  if b then
    levelToks.find? (fun t => isPrefixList t s && endBoundaryB (s.drop t.length))
  else none

/-- Left-to-right regex scan (`re.search`): try the positionwise matcher at
every position, first success wins; the boolean tracks whether the
previous character was a non-word character (the boundary state). -/
def scanM (f : Bool → List Char → Option (List Char)) : Bool → List Char → Option (List Char)
  | _, [] => none
  | b, c :: cs =>
    match f b (c :: cs) with
    | some t => some t
    | none => scanM f (!isWordChar c) cs

/-- The boundary state at position `i` of a scan of `s` started with state
`b`. -/
def boundAt (b : Bool) (s : List Char) (i : Nat) : Bool :=
  match i with
  | 0 => b
  | j + 1 =>
    match (s.drop j).head? with
    | some c => !isWordChar c
    | none => true

/-- Group 1 of the anchored organization match (lazy dot-star, then one or
more whitespace, then the literal division token `d`): the shortest
newline-free prefix followed by a whitespace run that ends right before an
occurrence of `d`.  Since `d` starts with a non-whitespace character, the
greedy whitespace repetition must consume the whole run. -/
def orgBeforeDiv (d : List Char) : List Char → List Char → Option (List Char)
  | _, [] => none
  | acc, c :: rest =>
    if isSpace c && isPrefixList d ((c :: rest).dropWhile isSpace) then
      some acc.reverse
    else if c = '\n' then none
    else orgBeforeDiv d (c :: acc) rest

/-- Result record of `parse_team_name`. -/
structure Parsed where
  organization : Option (List Char)
  division : Option (List Char)
  level : Option (List Char)
deriving DecidableEq

/-- The cleaned name: remove one leading `[Rep]` tag, then strip
(coba_team_scraper.py). -/
def cleanName (name : List Char) : List Char := strip (stripRep name)

/-- Fallback organization when no division token was found: the first two
whitespace-separated words of the cleaned name (or fewer when the name is
shorter), joined by a single space. -/
def fallbackOrg (clean : List Char) : Option (List Char) :=
  match wordsAux clean [] with
  | [] => none
  | [w] => some w
  | w1 :: w2 :: _ => some (w1 ++ ' ' :: w2)

/-- Organization extraction of `parse_team_name`: everything before the
(first-found) division token, stripped; otherwise the two-word
fallback. -/
def orgOf (clean : List Char) : Option (List Char) :=
  match scanM divMatchAt true clean with
  | some d => (orgBeforeDiv d [] clean).map strip
  | none => fallbackOrg clean

/-- `parse_team_name` of src/server/coba_team_scraper.py: the body of the
`try` block, which is total on string inputs (see `parse_team_name_opt`
and `parse_team_name_safe` for the exception wrapper). -/
def parse_team_name (name : List Char) : Parsed :=
  ⟨orgOf (cleanName name),
   scanM divMatchAt true (cleanName name),
   scanM levelMatchAt true (cleanName name)⟩

/-- At position zero the boundary state is the scan's starting state. -/
@[simp] theorem boundAt_zero (b : Bool) (s : List Char) : boundAt b s 0 = b := rfl

/-- The scan state after one character agrees with the boundary state of
the shifted position. -/
theorem boundAt_cons (b : Bool) (c : Char) (cs : List Char) (i : Nat) :
    boundAt b (c :: cs) (i + 1) = boundAt (!isWordChar c) cs i := by
  cases i with
  | zero => simp [boundAt]
  | succ j => simp [boundAt, List.drop_succ_cons]

/-- A scan that returns a match returns it at the first matching position:
the matcher succeeds at some position `i` and fails at every earlier
position. -/
theorem scanM_some_iff (f : Bool → List Char → Option (List Char))
    (hf : ∀ b, f b [] = none) (s : List Char) : ∀ (b : Bool) (t : List Char),
    scanM f b s = some t ↔
      ∃ i, f (boundAt b s i) (s.drop i) = some t ∧
        ∀ j, j < i → f (boundAt b s j) (s.drop j) = none := by
  induction s with
  | nil =>
    intro b t
    constructor
    · intro h; simp [scanM] at h
    · rintro ⟨i, hi, -⟩
      rw [List.drop_nil, hf] at hi
      exact absurd hi (by simp)
  | cons c cs ih =>
    intro b t
    constructor
    · intro h
      cases hfb : f b (c :: cs) with
      | some t' =>
        have ht : some t' = some t := by rwa [scanM, hfb] at h
        refine ⟨0, ?_, ?_⟩
        · rw [List.drop_zero, boundAt_zero, hfb]; exact ht
        · intro j hj; omega
      | none =>
        have h' : scanM f (!isWordChar c) cs = some t := by rwa [scanM, hfb] at h
        obtain ⟨i, hi, hlt⟩ := (ih (!isWordChar c) t).mp h'
        refine ⟨i + 1, ?_, ?_⟩
        · rw [boundAt_cons, List.drop_succ_cons]; exact hi
        · intro j hj
          cases j with
          | zero => rw [List.drop_zero, boundAt_zero]; exact hfb
          | succ j' =>
            rw [boundAt_cons, List.drop_succ_cons]
            exact hlt j' (by omega)
    · rintro ⟨i, hi, hlt⟩
      cases hfb : f b (c :: cs) with
      | some t' =>
        cases i with
        | zero =>
          rw [List.drop_zero, boundAt_zero, hfb] at hi
          rw [scanM, hfb]
          exact hi
        | succ i' =>
          have h0 := hlt 0 (by omega)
          rw [List.drop_zero, boundAt_zero, hfb] at h0
          exact absurd h0 (by simp)
      | none =>
        cases i with
        | zero =>
          rw [List.drop_zero, boundAt_zero, hfb] at hi
          exact absurd hi (by simp)
        | succ i' =>
          rw [scanM, hfb]
          apply (ih (!isWordChar c) t).mpr
          refine ⟨i', ?_, ?_⟩
          · rw [boundAt_cons, List.drop_succ_cons] at hi
            exact hi
          · intro j hj
            have hj' := hlt (j + 1) (by omega)
            rwa [boundAt_cons, List.drop_succ_cons] at hj'

/-- The division matcher never matches at the end of the string. -/
theorem divMatchAt_nil (b : Bool) : divMatchAt b [] = none := by
  cases b <;> rfl

/-- The level matcher never matches at the end of the string. -/
theorem levelMatchAt_nil (b : Bool) : levelMatchAt b [] = none := by
  cases b <;> rfl

/-- Every division token produced by the matcher is `Senior` or a nonempty
digit run followed by `U`. -/
theorem divMatchAt_shape (b : Bool) (s d : List Char)
    (h : divMatchAt b s = some d) :
    d = seniorTok ∨ ∃ ds, ds ≠ [] ∧ (∀ c ∈ ds, c.isDigit) ∧ d = ds ++ ['U'] := by
  unfold divMatchAt at h
  split_ifs at h with hb h1 h2
  · right
    refine ⟨s.takeWhile Char.isDigit, ?_, ?_, ?_⟩
    · intro hnil
      rw [hnil] at h1
      simp at h1
    · intro c hc
      exact List.mem_takeWhile_imp hc
    · exact (Option.some_injective _ h).symm
  · left
    exact (Option.some_injective _ h).symm

/-- The division field of a parse is the division scan of the cleaned
name. -/
theorem parse_division_eq (name : List Char) :
    (parse_team_name name).division = scanM divMatchAt true (cleanName name) := rfl

/-- The level field of a parse is the level scan of the cleaned name. -/
theorem parse_level_eq (name : List Char) :
    (parse_team_name name).level = scanM levelMatchAt true (cleanName name) := rfl

/-- At a position carrying a boundary-delimited occurrence of `AAA`, the
level matcher returns `AAA`: the alternation tries `AAA` before `AA` and
`A`. -/
theorem levelMatchAt_aaa (s : List Char)
    (hpre : isPrefixList (str "AAA") s = true)
    (hend : endBoundaryB (s.drop 3) = true) :
    levelMatchAt true s = some (str "AAA") := by
  have hp : (isPrefixList (str "AAA") s && endBoundaryB (s.drop (str "AAA").length)) = true := by
    rw [show (str "AAA").length = 3 from rfl, hpre, hend]; rfl
  simp [levelMatchAt, levelToks, List.find?_cons_of_pos, hp]

/-- C6, counterexample to the claim as stated: the division pattern accepts
any nonempty digit run, not only one-or-two-digit numbers.  Here a
three-digit token is extracted: the division has length 4 and ends in
`U`, so it is a three-digit number followed by `U`, and it is not
`Senior`. -/
theorem c6_counterexample :
    (parse_team_name (str "Mississauga 123U AA")).division = some (str "123U") ∧
    (str "123U").length = 4 ∧ (str "123U").getLast? = some 'U' ∧
    str "123U" ≠ seniorTok := by
  refine ⟨by decide, by decide, by decide, by decide⟩

/-- C6 (amended): every extracted division token is the literal `Senior`
or a nonempty run of one or more digits (not necessarily at most two)
followed by `U`; it is found at the first matching position of the
left-to-right scan of the cleaned name; at most one division is extracted
because the result is a single optional token. -/
theorem c6_division_shape_first_match (name d : List Char)
    (h : (parse_team_name name).division = some d) :
    (d = seniorTok ∨ ∃ ds, ds ≠ [] ∧ (∀ c ∈ ds, c.isDigit) ∧ d = ds ++ ['U']) ∧
    ∃ i, divMatchAt (boundAt true (cleanName name) i) ((cleanName name).drop i) = some d ∧
      ∀ j, j < i →
        divMatchAt (boundAt true (cleanName name) j) ((cleanName name).drop j) = none := by
  rw [parse_division_eq] at h
  obtain ⟨i, hi, hlt⟩ := (scanM_some_iff divMatchAt divMatchAt_nil (cleanName name) true d).mp h
  exact ⟨divMatchAt_shape _ _ _ hi, i, hi, hlt⟩

/-- Witness for `c6_division_shape_first_match` at the name
`Burlington 10U 3 A`, whose division parses to `10U`. -/
theorem c6_amended_witness :
    (parse_team_name (str "Burlington 10U 3 A")).division = some (str "10U") ∧
    ((str "10U" = seniorTok ∨
        ∃ ds, ds ≠ [] ∧ (∀ c ∈ ds, c.isDigit) ∧ str "10U" = ds ++ ['U']) ∧
      ∃ i, divMatchAt (boundAt true (cleanName (str "Burlington 10U 3 A")) i)
            ((cleanName (str "Burlington 10U 3 A")).drop i) = some (str "10U") ∧
        ∀ j, j < i →
          divMatchAt (boundAt true (cleanName (str "Burlington 10U 3 A")) j)
            ((cleanName (str "Burlington 10U 3 A")).drop j) = none) :=
  ⟨by decide, c6_division_shape_first_match (str "Burlington 10U 3 A") (str "10U") (by decide)⟩

/-- C1, counterexample to the claim as stated: the name `A Team AAA`
contains the token `AAA`, yet level extraction returns `A`, because the
regex search is leftmost-first and the standalone token `A` occurs
earlier in the string. -/
theorem c1_counterexample :
    containsSub (str "AAA") (str "A Team AAA") = true ∧
    (parse_team_name (str "A Team AAA")).level = some (str "A") ∧
    str "A" ≠ str "AAA" := by
  refine ⟨by decide, by decide, by decide⟩

/-- C1 (amended): at any single position the alternation prefers `AAA`
over the shorter tokens it contains, so whenever the cleaned name carries
a boundary-delimited `AAA` at position `i` and no level token matches at
any earlier position, level extraction returns `AAA` — never `AA` or
`A`.  (An occurrence of a different vocabulary token earlier in the
string, however, wins, as `c1_counterexample` shows.) -/
theorem c1_level_aaa_precedence (name : List Char) (i : Nat)
    (hpre : isPrefixList (str "AAA") ((cleanName name).drop i) = true)
    (hb : boundAt true (cleanName name) i = true)
    (hend : endBoundaryB ((cleanName name).drop (i + 3)) = true)
    (hfirst : ∀ j, j < i →
      levelMatchAt (boundAt true (cleanName name) j) ((cleanName name).drop j) = none) :
    (parse_team_name name).level = some (str "AAA") := by
  rw [parse_level_eq]
  apply (scanM_some_iff levelMatchAt levelMatchAt_nil (cleanName name) true (str "AAA")).mpr
  refine ⟨i, ?_, hfirst⟩
  rw [hb]
  have hend' : endBoundaryB (((cleanName name).drop i).drop 3) = true := by
    rw [List.drop_drop]
    exact hend
  exact levelMatchAt_aaa _ hpre hend'

/-- Witness for `c1_level_aaa_precedence` at `Brampton 10U AAA`, where the
`AAA` occurrence starts at position 13 of the cleaned name and no level
token matches earlier. -/
theorem c1_amended_witness :
    isPrefixList (str "AAA") ((cleanName (str "Brampton 10U AAA")).drop 13) = true ∧
    (parse_team_name (str "Brampton 10U AAA")).level = some (str "AAA") :=
  ⟨by decide,
    c1_level_aaa_precedence (str "Brampton 10U AAA") 13
      (by decide) (by decide) (by decide) (by decide)⟩

/-- C9, counterexample to the claim as stated: `[Rep] [Rep] foo` contains
no division token, its organization parses to `[Rep] foo`, but re-parsing
that organization strips the leading tag again and truncates it to
`foo`. -/
theorem c9_counterexample :
    (parse_team_name (str "[Rep] [Rep] foo")).division = none ∧
    (parse_team_name (str "[Rep] [Rep] foo")).organization = some (str "[Rep] foo") ∧
    (parse_team_name (str "[Rep] foo")).organization = some (str "foo") ∧
    str "foo" ≠ str "[Rep] foo" := by
  refine ⟨by decide, by decide, by decide, by decide⟩

/-- Whitespace characters are not word characters. -/
theorem isSpace_not_word (c : Char) (h : isSpace c = true) : isWordChar c = false := by
  simp only [isSpace, Bool.or_eq_true, decide_eq_true_eq] at h
  rcases h with ((h | h) | h) | h <;> subst h <;> decide

/-- Whitespace characters are not digits. -/
theorem isSpace_not_digit (c : Char) (h : isSpace c = true) : c.isDigit = false := by
  simp only [isSpace, Bool.or_eq_true, decide_eq_true_eq] at h
  rcases h with ((h | h) | h) | h <;> subst h <;> decide

/-- Whitespace characters differ from any fixed non-space character. -/
theorem isSpace_ne (c d : Char) (h : isSpace c = true) (hd : isSpace d = false) : c ≠ d := by
  intro he
  subst he
  rw [h] at hd
  cases hd

/-- `takeWhile` ignores an appended tail whose head fails the predicate. -/
theorem takeWhile_append_headfalse (p : Char → Bool) (m rest : List Char)
    (h : ∀ d, rest.head? = some d → p d = false) :
    (m ++ rest).takeWhile p = m.takeWhile p := by
  induction m with
  | nil =>
    simp only [List.nil_append, List.takeWhile_nil]
    cases rest with
    | nil => rfl
    | cons d r' => rw [List.takeWhile_cons_of_neg (by simp [h d rfl])]
  | cons c m' ih =>
    cases hp : p c with
    | true =>
      rw [List.cons_append, List.takeWhile_cons_of_pos hp,
        List.takeWhile_cons_of_pos hp, ih]
    | false =>
      rw [List.cons_append, List.takeWhile_cons_of_neg (by simp [hp]),
        List.takeWhile_cons_of_neg (by simp [hp])]

/-- `dropWhile` passes over a segment all of whose characters satisfy the
predicate. -/
theorem dropWhile_append_alltrue (p : Char → Bool) (m rest : List Char)
    (hm : ∀ c ∈ m, p c = true)
    (hrest : ∀ d, rest.head? = some d → p d = false) :
    (m ++ rest).dropWhile p = rest := by
  induction m with
  | nil =>
    simp only [List.nil_append]
    cases rest with
    | nil => rfl
    | cons d r' => rw [List.dropWhile_cons_of_neg (by simp [hrest d rfl])]
  | cons c m' ih =>
    rw [List.cons_append, List.dropWhile_cons_of_pos (by simp [hm c (by simp)])]
    exact ih (fun x hx => hm x (by simp [hx]))

/-- `dropWhile` is the identity when the head already fails the
predicate. -/
theorem dropWhile_headfalse (p : Char → Bool) (l : List Char)
    (h : ∀ d, l.head? = some d → p d = false) :
    l.dropWhile p = l := by
  cases l with
  | nil => rfl
  | cons c cs => rw [List.dropWhile_cons_of_neg (by simp [h c rfl])]

/-- The head of a `dropWhile` result fails the predicate. -/
theorem dropWhile_head_false (p : Char → Bool) :
    ∀ (l : List Char) (d : Char), (l.dropWhile p).head? = some d → p d = false := by
  intro l
  induction l with
  | nil => intro d h; cases h
  | cons c cs ih =>
    intro d h
    cases hp : p c with
    | true =>
      rw [List.dropWhile_cons_of_pos (by simp [hp])] at h
      exact ih d h
    | false =>
      rw [List.dropWhile_cons_of_neg (by simp [hp])] at h
      cases h
      exact hp

/-- The head of a drop inside the left part of an append is unchanged. -/
theorem head?_drop_append (u rest : List Char) (i : Nat) (h : i < u.length) :
    ((u ++ rest).drop i).head? = (u.drop i).head? := by
  rw [List.drop_append_of_le_length h.le]
  cases hd : u.drop i with
  | nil =>
    exfalso
    rw [List.drop_eq_nil_iff] at hd
    omega
  | cons d r => simp

/-- A prefix test that fits inside the left part of an append is
unchanged. -/
theorem isPrefixList_append_of_le (pat : List Char) :
    ∀ (u rest : List Char), pat.length ≤ u.length →
      isPrefixList pat (u ++ rest) = isPrefixList pat u := by
  induction pat with
  | nil => intro u rest _; rfl
  | cons a pat' ih =>
    intro u rest h
    cases u with
    | nil => simp at h
    | cons b u' =>
      rw [List.cons_append, isPrefixList, isPrefixList, ih u' rest (by simpa using h)]

/-- A pattern longer than the list is never a prefix of it. -/
theorem isPrefixList_long_false (pat : List Char) :
    ∀ u : List Char, u.length < pat.length → isPrefixList pat u = false := by
  induction pat with
  | nil => intro u h; simp at h
  | cons a pat' ih =>
    intro u h
    cases u with
    | nil => rfl
    | cons b u' =>
      rw [isPrefixList, ih u' (by simpa using h)]
      simp

/-- A non-whitespace pattern longer than the word `u` is not a prefix of
`u` followed by whitespace. -/
theorem isPrefixList_append_space_false (pat : List Char) :
    ∀ (u rest : List Char), u.length < pat.length →
      (∀ d, rest.head? = some d → isSpace d = true) →
      (∀ c ∈ pat, isSpace c = false) →
      isPrefixList pat (u ++ rest) = false := by
  induction pat with
  | nil => intro u rest h _ _; simp at h
  | cons p pat' ih =>
    intro u rest h hrest hpat
    cases u with
    | nil =>
      simp only [List.nil_append]
      cases rest with
      | nil => rfl
      | cons d r' =>
        rw [isPrefixList]
        have hd := hrest d rfl
        have hne : p ≠ d := fun he => isSpace_ne d p hd (hpat p (by simp)) he.symm
        simp [hne]
    | cons b u' =>
      rw [List.cons_append, isPrefixList,
        ih u' rest (by simpa using h) hrest (fun c hc => hpat c (by simp [hc]))]
      simp

/-- End-boundary test at an index that fits inside the left part of an
append, with whitespace (or nothing) after: unchanged. -/
theorem endB_drop_append (u rest : List Char) (i : Nat)
    (hrest : ∀ d, rest.head? = some d → isSpace d = true) (hi : i ≤ u.length) :
    endBoundaryB ((u ++ rest).drop i) = endBoundaryB (u.drop i) := by
  rcases Nat.lt_or_ge i u.length with hlt | hge
  · rw [endBoundaryB, endBoundaryB, head?_drop_append u rest i hlt]
  · have hieq : i = u.length := Nat.le_antisymm hi hge
    subst hieq
    rw [List.drop_left, List.drop_length]
    cases hr : rest with
    | nil => rfl
    | cons d r' =>
      have hd := hrest d (by simp [hr])
      rw [endBoundaryB, endBoundaryB]
      simp [isSpace_not_word d hd]

/-- Definitional unfolding of the division matcher at a true boundary. -/
theorem divMatchAt_true (s : List Char) :
    divMatchAt true s =
      (if !(s.takeWhile Char.isDigit).isEmpty
          && ((s.drop (s.takeWhile Char.isDigit).length).head? == some 'U')
          && endBoundaryB (s.drop ((s.takeWhile Char.isDigit).length + 1)) then
        some (s.takeWhile Char.isDigit ++ ['U'])
      else if isPrefixList seniorTok s && endBoundaryB (s.drop 6) then
        some seniorTok
      else none) := rfl

/-- `takeWhile` never lengthens a list. -/
theorem takeWhile_len_le (p : Char → Bool) (l : List Char) :
    (l.takeWhile p).length ≤ l.length := by
  induction l with
  | nil => simp
  | cons c cs ih =>
    cases hp : p c with
    | true => rw [List.takeWhile_cons_of_pos (by simp [hp])]; simpa using ih
    | false => rw [List.takeWhile_cons_of_neg (by simp [hp])]; simp

/-- `dropWhile` never lengthens a list. -/
theorem dropWhile_len_le (p : Char → Bool) (l : List Char) :
    (l.dropWhile p).length ≤ l.length := by
  induction l with
  | nil => simp
  | cons c cs ih =>
    cases hp : p c with
    | true =>
      rw [List.dropWhile_cons_of_pos (by simp [hp])]
      exact Nat.le_trans ih (by simp)
    | false => rw [List.dropWhile_cons_of_neg (by simp [hp])]

/-- `Senior` is never a prefix of a string starting with a digit. -/
theorem senior_not_prefix_digit (d0 : Char) (x : List Char)
    (hd : Char.isDigit d0 = true) :
    isPrefixList seniorTok (d0 :: x) = false := by
  have hne : 'S' ≠ d0 := by
    intro he
    rw [← he] at hd
    exact absurd hd (by decide)
  show (decide ('S' = d0) && isPrefixList (str "enior") x) = false
  simp [hne]

/-- The division matcher never matches at a whitespace character. -/
theorem divMatchAt_space_head (b : Bool) (c : Char) (cs : List Char)
    (h : isSpace c = true) : divMatchAt b (c :: cs) = none := by
  cases b with
  | false => rfl
  | true =>
    have hd : Char.isDigit c = false := isSpace_not_digit c h
    have htw : (c :: cs).takeWhile Char.isDigit = [] :=
      List.takeWhile_cons_of_neg (by simp [hd])
    have hpre : isPrefixList seniorTok (c :: cs) = false := by
      have hne : 'S' ≠ c := (isSpace_ne c 'S' h (by decide)).symm
      show (decide ('S' = c) && isPrefixList (str "enior") cs) = false
      simp [hne]
    rw [divMatchAt_true, htw, hpre]
    simp

/-- Scanning past a whitespace character resets the boundary state to
true and matches nothing there. -/
theorem scanDiv_space_cons (b : Bool) (d : Char) (r : List Char)
    (h : isSpace d = true) :
    scanM divMatchAt b (d :: r) = scanM divMatchAt true r := by
  rw [scanM, divMatchAt_space_head b d r h]
  simp only [isSpace_not_word d h, Bool.not_false]

/-- Locality of the division matcher: at a position inside a
whitespace-free segment, the matcher does not look past the segment's end
when the remainder starts with whitespace (or is empty). -/
theorem divMatchAt_append (b : Bool) (m rest : List Char)
    (hm : ∀ c ∈ m, isSpace c = false) (hne : m ≠ [])
    (hrest : ∀ d, rest.head? = some d → isSpace d = true) :
    divMatchAt b (m ++ rest) = divMatchAt b m := by
  cases b with
  | false => rfl
  | true =>
    have htw : (m ++ rest).takeWhile Char.isDigit = m.takeWhile Char.isDigit :=
      takeWhile_append_headfalse _ _ _
        (fun d hd => isSpace_not_digit d (hrest d hd))
    have hdsl : (m.takeWhile Char.isDigit).length ≤ m.length := takeWhile_len_le _ _
    rw [divMatchAt_true, divMatchAt_true, htw]
    rcases Nat.lt_or_ge (m.takeWhile Char.isDigit).length m.length with hlt | hge
    · have hU : ((m ++ rest).drop (m.takeWhile Char.isDigit).length).head?
          = (m.drop (m.takeWhile Char.isDigit).length).head? :=
        head?_drop_append _ _ _ hlt
      have hB : endBoundaryB ((m ++ rest).drop ((m.takeWhile Char.isDigit).length + 1))
          = endBoundaryB (m.drop ((m.takeWhile Char.isDigit).length + 1)) :=
        endB_drop_append _ _ _ hrest (by omega)
      rw [hU, hB]
      rcases Nat.lt_or_ge m.length 6 with h6 | h6
      · have hS1 : isPrefixList seniorTok (m ++ rest) = false :=
          isPrefixList_append_space_false _ _ _
            (by rw [show seniorTok.length = 6 from rfl]; omega) hrest
            (by intro c hc; fin_cases hc <;> rfl)
        have hS2 : isPrefixList seniorTok m = false :=
          isPrefixList_long_false _ _ (by rw [show seniorTok.length = 6 from rfl]; omega)
        rw [hS1, hS2]
        simp
      · have hS : isPrefixList seniorTok (m ++ rest) = isPrefixList seniorTok m :=
          isPrefixList_append_of_le _ _ _ (by rw [show seniorTok.length = 6 from rfl]; exact h6)
        have hSB : endBoundaryB ((m ++ rest).drop 6) = endBoundaryB (m.drop 6) :=
          endB_drop_append _ _ _ hrest h6
        rw [hS, hSB]
    · have heq : (m.takeWhile Char.isDigit).length = m.length := Nat.le_antisymm hdsl hge
      obtain ⟨d0, m', hm0⟩ : ∃ d0 m', m = d0 :: m' := by
        cases m with
        | nil => exact absurd rfl hne
        | cons a l => exact ⟨a, l, rfl⟩
      have hd0 : Char.isDigit d0 = true := by
        cases hd : Char.isDigit d0 with
        | true => rfl
        | false =>
          rw [hm0, List.takeWhile_cons_of_neg (by simp [hd])] at heq
          simp at heq
      have hU1 : (((m ++ rest).drop (m.takeWhile Char.isDigit).length).head? == some 'U')
          = false := by
        rw [heq, List.drop_left]
        cases hr : rest with
        | nil => rfl
        | cons d r' =>
          have hd := hrest d (by simp [hr])
          have hne' : d ≠ 'U' := isSpace_ne d 'U' hd (by decide)
          simp [hne']
      have hU2 : ((m.drop (m.takeWhile Char.isDigit).length).head? == some 'U') = false := by
        rw [heq, List.drop_length]
        rfl
      have hS1 : isPrefixList seniorTok (m ++ rest) = false := by
        rw [hm0, List.cons_append]
        exact senior_not_prefix_digit d0 (m' ++ rest) hd0
      have hS2 : isPrefixList seniorTok m = false := by
        rw [hm0]
        exact senior_not_prefix_digit d0 m' hd0
      rw [hU1, hU2, hS1, hS2]
      simp

/-- Scanning a whitespace-free segment followed by whitespace (or
nothing) decomposes: no match in the whole iff no match in the segment and
none in the remainder. -/
theorem scanDiv_word_append (m : List Char) : ∀ (b : Bool) (rest : List Char),
    (∀ c ∈ m, isSpace c = false) →
    (∀ d, rest.head? = some d → isSpace d = true) →
    (scanM divMatchAt b (m ++ rest) = none ↔
      scanM divMatchAt b m = none ∧ scanM divMatchAt true rest = none) := by
  induction m with
  | nil =>
    intro b rest _ hrest
    rw [List.nil_append]
    cases rest with
    | nil => simp [scanM]
    | cons d r' =>
      have hd := hrest d rfl
      rw [scanDiv_space_cons b d r' hd, scanDiv_space_cons true d r' hd]
      simp [scanM]
  | cons c m' ih =>
    intro b rest hm hrest
    have hL1 : divMatchAt b ((c :: m') ++ rest) = divMatchAt b (c :: m') :=
      divMatchAt_append b (c :: m') rest hm (by simp) hrest
    rw [List.cons_append] at hL1 ⊢
    rw [scanM, scanM, hL1]
    cases hfb : divMatchAt b (c :: m') with
    | some t => simp
    | none =>
      simp only []
      exact ih (!isWordChar c) rest (fun x hx => hm x (by simp [hx])) hrest

/-- Splitting off the leading non-space run relates `wordsAux` on the rest
to the accumulator. -/
theorem wordsAux_nospace_run : ∀ (l acc : List Char),
    wordsAux l acc =
      wordsAux (l.dropWhile (fun d => !isSpace d))
        ((l.takeWhile (fun d => !isSpace d)).reverse ++ acc) := by
  intro l
  induction l with
  | nil => intro acc; simp
  | cons c cs ih =>
    intro acc
    cases hc : isSpace c with
    | true =>
      rw [List.takeWhile_cons_of_neg (by simp [hc]),
        List.dropWhile_cons_of_neg (by simp [hc])]
      simp
    | false =>
      rw [List.takeWhile_cons_of_pos (by simp [hc]),
        List.dropWhile_cons_of_pos (by simp [hc])]
      rw [wordsAux, if_neg (by simp [hc])]
      rw [ih (c :: acc)]
      simp

/-- Flushing a nonempty accumulated word at whitespace (or the end). -/
theorem wordsAux_flush (w rest : List Char) (hw : w ≠ [])
    (hrest : ∀ d, rest.head? = some d → isSpace d = true) :
    wordsAux rest w.reverse = w :: wordsAux rest [] := by
  cases rest with
  | nil =>
    rw [wordsAux, if_neg (by simp [hw]), List.reverse_reverse]
    rfl
  | cons d r' =>
    have hd := hrest d rfl
    rw [wordsAux, if_pos (by simp [hd]), if_neg (by simp [hw]), List.reverse_reverse]
    rw [wordsAux, if_pos (by simp [hd])]
    simp

/-- The word list of a string headed by a non-space character starts with
its leading non-space run. -/
theorem wordsAux_cons_word (c : Char) (cs : List Char) (hc : isSpace c = false) :
    wordsAux (c :: cs) [] =
      (c :: cs.takeWhile (fun d => !isSpace d)) ::
        wordsAux (cs.dropWhile (fun d => !isSpace d)) [] := by
  rw [wordsAux, if_neg (by simp [hc])]
  rw [wordsAux_nospace_run cs [c]]
  have : (cs.takeWhile (fun d => !isSpace d)).reverse ++ [c]
      = (c :: cs.takeWhile (fun d => !isSpace d)).reverse := by simp
  rw [this]
  exact wordsAux_flush _ _ (by simp)
    (fun d hd => by
      have := dropWhile_head_false (fun d => !isSpace d) cs d hd
      simpa using this)

/-- Word-wise characterisation of division search failure: the scan finds
no division token iff no whitespace-separated word contains one. -/
theorem scanDiv_words : ∀ s : List Char,
    (scanM divMatchAt true s = none ↔
      ∀ w ∈ wordsAux s [], scanM divMatchAt true w = none)
  | [] => by simp [scanM, wordsAux]
  | c :: cs => by
    cases hc : isSpace c with
    | true =>
      rw [scanDiv_space_cons true c cs hc]
      rw [wordsAux, if_pos (by simp [hc])]
      simp only [List.isEmpty_nil, if_true]
      exact scanDiv_words cs
    | false =>
      have hsplit : c :: cs
          = (c :: cs.takeWhile (fun d => !isSpace d))
            ++ cs.dropWhile (fun d => !isSpace d) := by
        rw [List.cons_append, List.takeWhile_append_dropWhile]
      have hwns : ∀ x ∈ c :: cs.takeWhile (fun d => !isSpace d), isSpace x = false := by
        intro x hx
        rcases List.mem_cons.mp hx with hx | hx
        · rw [hx]; exact hc
        · have := List.mem_takeWhile_imp hx
          simpa using this
      have hresth : ∀ d, (cs.dropWhile (fun d => !isSpace d)).head? = some d →
          isSpace d = true := by
        intro d hd
        have := dropWhile_head_false (fun d => !isSpace d) cs d hd
        simpa using this
      rw [wordsAux_cons_word c cs hc]
      constructor
      · intro h
        rw [hsplit] at h
        obtain ⟨h1, h2⟩ := (scanDiv_word_append _ true _ hwns hresth).mp h
        intro w hw
        rcases List.mem_cons.mp hw with hw | hw
        · rw [hw]; exact h1
        · exact ((scanDiv_words (cs.dropWhile (fun d => !isSpace d))).mp h2) w hw
      · intro h
        rw [hsplit]
        apply (scanDiv_word_append _ true _ hwns hresth).mpr
        refine ⟨h _ (by simp), ?_⟩
        apply (scanDiv_words (cs.dropWhile (fun d => !isSpace d))).mpr
        intro w hw
        exact h w (by simp [hw])
termination_by s => s.length
decreasing_by
  all_goals simp only [List.length_cons]
  all_goals first
    | exact Nat.lt_succ_of_le (dropWhile_len_le _ _)
    | omega

/-- `takeWhile` keeps a list all of whose elements satisfy the
predicate. -/
theorem takeWhile_alltrue (p : Char → Bool) : ∀ l : List Char,
    (∀ c ∈ l, p c = true) → l.takeWhile p = l := by
  intro l
  induction l with
  | nil => intro _; rfl
  | cons c cs ih =>
    intro h
    rw [List.takeWhile_cons_of_pos (by simp [h c (by simp)])]
    rw [ih (fun x hx => h x (by simp [hx]))]

/-- `dropWhile` drops a list all of whose elements satisfy the
predicate. -/
theorem dropWhile_alltrue (p : Char → Bool) : ∀ l : List Char,
    (∀ c ∈ l, p c = true) → l.dropWhile p = [] := by
  intro l
  induction l with
  | nil => intro _; rfl
  | cons c cs ih =>
    intro h
    rw [List.dropWhile_cons_of_pos (by simp [h c (by simp)])]
    exact ih (fun x hx => h x (by simp [hx]))

/-- Every word produced by `wordsAux` from a whitespace-free accumulator
is nonempty and whitespace-free. -/
theorem wordsAux_sound : ∀ (l acc : List Char),
    (∀ c ∈ acc, isSpace c = false) →
    ∀ w ∈ wordsAux l acc, w ≠ [] ∧ ∀ c ∈ w, isSpace c = false := by
  intro l
  induction l with
  | nil =>
    intro acc hacc w hw
    cases hacc2 : acc.isEmpty with
    | true => rw [wordsAux, if_pos (by simp [hacc2])] at hw; cases hw
    | false =>
      rw [wordsAux, if_neg (by simp [hacc2])] at hw
      rcases List.mem_singleton.mp hw with rfl
      refine ⟨?_, ?_⟩
      · intro h0
        rw [List.reverse_eq_nil_iff] at h0
        rw [h0] at hacc2
        cases hacc2
      · intro x hx
        exact hacc x (List.mem_reverse.mp hx)
  | cons c cs ih =>
    intro acc hacc w hw
    cases hc : isSpace c with
    | true =>
      rw [wordsAux, if_pos (by simp [hc])] at hw
      cases hacc2 : acc.isEmpty with
      | true =>
        rw [if_pos (by simp [hacc2])] at hw
        exact ih [] (by intro x hx; cases hx) w hw
      | false =>
        rw [if_neg (by simp [hacc2])] at hw
        rcases List.mem_cons.mp hw with rfl | hw
        · refine ⟨?_, ?_⟩
          · intro h0
            rw [List.reverse_eq_nil_iff] at h0
            rw [h0] at hacc2
            cases hacc2
          · intro x hx
            exact hacc x (List.mem_reverse.mp hx)
        · exact ih [] (by intro x hx; cases hx) w hw
    | false =>
      rw [wordsAux, if_neg (by simp [hc])] at hw
      refine ih (c :: acc) ?_ w hw
      intro x hx
      rcases List.mem_cons.mp hx with rfl | hx
      · exact hc
      · exact hacc x hx

/-- A nonempty whitespace-free string is a single word. -/
theorem wordsAux_single (w : List Char) (hw : w ≠ [])
    (hns : ∀ c ∈ w, isSpace c = false) : wordsAux w [] = [w] := by
  cases w with
  | nil => exact absurd rfl hw
  | cons c cs =>
    rw [wordsAux_cons_word c cs (hns c (by simp))]
    rw [takeWhile_alltrue _ cs (fun x hx => by simp [hns x (by simp [hx])])]
    rw [dropWhile_alltrue _ cs (fun x hx => by simp [hns x (by simp [hx])])]
    rfl

/-- Two nonempty whitespace-free words joined by a single space split back
into exactly those two words. -/
theorem wordsAux_pair (w1 w2 : List Char) (h1 : w1 ≠ [])
    (hn1 : ∀ c ∈ w1, isSpace c = false) (h2 : w2 ≠ [])
    (hn2 : ∀ c ∈ w2, isSpace c = false) :
    wordsAux (w1 ++ ' ' :: w2) [] = [w1, w2] := by
  cases w1 with
  | nil => exact absurd rfl h1
  | cons c cs =>
    have hc : isSpace c = false := hn1 c (by simp)
    rw [List.cons_append, wordsAux_cons_word c (cs ++ ' ' :: w2) hc]
    have htw : (cs ++ ' ' :: w2).takeWhile (fun d => !isSpace d) = cs := by
      rw [takeWhile_append_headfalse _ cs (' ' :: w2)
        (by intro d hd; cases hd; decide)]
      exact takeWhile_alltrue _ cs (fun x hx => by simp [hn1 x (by simp [hx])])
    have hdw : (cs ++ ' ' :: w2).dropWhile (fun d => !isSpace d) = ' ' :: w2 :=
      dropWhile_append_alltrue _ cs (' ' :: w2)
        (fun x hx => by simp [hn1 x (by simp [hx])])
        (by intro d hd; cases hd; decide)
    rw [htw, hdw]
    rw [wordsAux, if_pos (by decide), if_pos (by simp)]
    rw [wordsAux_single w2 h2 hn2]

/-- The head of a nonempty left append part survives the append. -/
theorem head?_append_left (l1 l2 : List Char) (h : l1 ≠ []) :
    (l1 ++ l2).head? = l1.head? := by
  cases l1 with
  | nil => exact absurd rfl h
  | cons c cs => rfl

/-- The head is a member. -/
theorem head?_some_mem (l : List Char) (d : Char) (h : l.head? = some d) :
    d ∈ l := by
  cases l with
  | nil => cases h
  | cons c cs =>
    injection h with h'
    rw [← h']
    simp

/-- `strip` is the identity on strings whose first and last characters are
not whitespace. -/
theorem strip_eq_self (w : List Char)
    (h1 : ∀ d, w.head? = some d → isSpace d = false)
    (h2 : ∀ d, w.reverse.head? = some d → isSpace d = false) :
    strip w = w := by
  rw [strip, dropWhile_headfalse isSpace w h1,
    dropWhile_headfalse isSpace w.reverse h2]
  exact List.reverse_reverse w

/-- C9 (amended): the parser is idempotent on the organization field for
every input without a division token whose organization output does not
itself start with the literal `[Rep]` tag (re-parsing strips such a tag
again, see `c9_counterexample`): re-parsing the organization returns it
unchanged. -/
theorem c9_idempotent_amended (x y : List Char)
    (hdiv : (parse_team_name x).division = none)
    (horg : (parse_team_name x).organization = some y)
    (hrep : isPrefixList (str "[Rep]") y = false) :
    (parse_team_name y).organization = some y := by
  have hscan : scanM divMatchAt true (cleanName x) = none := hdiv
  have hwords := (scanDiv_words (cleanName x)).mp hscan
  have horg' : fallbackOrg (cleanName x) = some y := by
    have he : (parse_team_name x).organization = orgOf (cleanName x) := rfl
    rw [he, orgOf, hscan] at horg
    exact horg
  have hsound := wordsAux_sound (cleanName x) [] (by intro c hc; cases hc)
  rw [fallbackOrg] at horg'
  cases hw : wordsAux (cleanName x) [] with
  | nil =>
    rw [hw] at horg'
    cases horg'
  | cons u tl =>
    cases tl with
    | nil =>
      rw [hw] at horg'
      have hyu : some u = some y := horg'
      have hy : y = u := (Option.some_injective _ hyu).symm
      subst hy
      obtain ⟨hune, huns⟩ := hsound y (by rw [hw]; simp)
      have hcy : cleanName y = y := by
        rw [cleanName, stripRep, if_neg (by simp [hrep])]
        apply strip_eq_self
        · intro d hd; exact huns d (head?_some_mem _ _ hd)
        · intro d hd; exact huns d (List.mem_reverse.mp (head?_some_mem _ _ hd))
      show orgOf (cleanName y) = some y
      rw [hcy, orgOf, hwords y (by rw [hw]; simp)]
      rw [fallbackOrg, wordsAux_single y hune huns]
    | cons v tl2 =>
      rw [hw] at horg'
      have hyuv : some (u ++ ' ' :: v) = some y := horg'
      have hy : y = u ++ ' ' :: v := (Option.some_injective _ hyuv).symm
      obtain ⟨hune, huns⟩ := hsound u (by rw [hw]; simp)
      obtain ⟨hvne, hvns⟩ := hsound v (by rw [hw]; simp)
      subst hy
      have hcy : cleanName (u ++ ' ' :: v) = u ++ ' ' :: v := by
        rw [cleanName, stripRep, if_neg (by simp [hrep])]
        apply strip_eq_self
        · intro d hd
          rw [head?_append_left _ _ hune] at hd
          exact huns d (head?_some_mem _ _ hd)
        · intro d hd
          rw [List.reverse_append, List.reverse_cons] at hd
          rw [head?_append_left _ _ (by simp)] at hd
          rw [head?_append_left _ _ (by simp [hvne])] at hd
          exact hvns d (List.mem_reverse.mp (head?_some_mem _ _ hd))
      have hscany : scanM divMatchAt true (u ++ ' ' :: v) = none := by
        apply (scanDiv_word_append u true (' ' :: v) huns
          (by intro d hd; cases hd; rfl)).mpr
        refine ⟨hwords u (by rw [hw]; simp), ?_⟩
        rw [scanDiv_space_cons true ' ' v (by decide)]
        exact hwords v (by rw [hw]; simp)
      show orgOf (cleanName (u ++ ' ' :: v)) = some (u ++ ' ' :: v)
      rw [hcy, orgOf, hscany]
      rw [fallbackOrg, wordsAux_pair u v hune huns hvne hvns]

/-- Witness for `c9_idempotent_amended`: `Forest Glade Falcons` has no
division token, its organization parses to `Forest Glade`, and re-parsing
`Forest Glade` leaves the organization unchanged. -/
theorem c9_amended_witness :
    (parse_team_name (str "Forest Glade Falcons")).division = none ∧
    (parse_team_name (str "Forest Glade Falcons")).organization = some (str "Forest Glade") ∧
    (parse_team_name (str "Forest Glade")).organization = some (str "Forest Glade") :=
  ⟨by decide, by decide,
    c9_idempotent_amended (str "Forest Glade Falcons") (str "Forest Glade")
      (by decide) (by decide) (by decide)⟩

/-- Python list indexing `parts[0]`, which raises on an empty list. -/
def pyListHead (l : List (List Char)) : Option (List Char) := l.head?

/-- The `try` body of `parse_team_name` with every Python-fallible
operation made explicit (`none` marks a spot where an exception would
propagate): the only indexing, `parts[0]`, is guarded by the source's
`if parts else None` conditional expression. -/
def parse_team_name_opt (name : List Char) : Option Parsed :=
  match scanM divMatchAt true (cleanName name) with
  | some d =>
    some ⟨(orgBeforeDiv d [] (cleanName name)).map strip,
      some d, scanM levelMatchAt true (cleanName name)⟩
  | none =>
    if 2 ≤ (wordsAux (cleanName name) []).length then
      match wordsAux (cleanName name) [] with
      | w1 :: w2 :: _ =>
        some ⟨some (w1 ++ ' ' :: w2), none, scanM levelMatchAt true (cleanName name)⟩
      | _ => none
    else if !(wordsAux (cleanName name) []).isEmpty then
      match pyListHead (wordsAux (cleanName name) []) with
      | some w => some ⟨some w, none, scanM levelMatchAt true (cleanName name)⟩
      | none => none
    else some ⟨none, none, scanM levelMatchAt true (cleanName name)⟩

/-- The full `parse_team_name` with its `except` handler: on any internal
error the function returns the raw name as organization with null
division and level, instead of propagating the exception. -/
def parse_team_name_safe (name : List Char) : Parsed :=
  match parse_team_name_opt name with
  | some r => r
  | none => ⟨some name, none, none⟩

/-- C8: the parser never fails.  On every string input the `try` body
completes without an internal error and the wrapper returns its
structured result; the `except` fallback (raw name as organization, null
division and level) is present in `parse_team_name_safe` but never
taken. -/
theorem c8_parse_never_fails (name : List Char) :
    parse_team_name_opt name = some (parse_team_name name) ∧
    parse_team_name_safe name = parse_team_name name := by
  have h1 : parse_team_name_opt name = some (parse_team_name name) := by
    rw [parse_team_name_opt, parse_team_name]
    cases hd : scanM divMatchAt true (cleanName name) with
    | some d =>
      have ho : orgOf (cleanName name)
          = (orgBeforeDiv d [] (cleanName name)).map strip := by
        rw [orgOf, hd]
      rw [ho]
    | none =>
      have ho : orgOf (cleanName name) = fallbackOrg (cleanName name) := by
        rw [orgOf, hd]
      rw [ho]
      cases hp : wordsAux (cleanName name) [] with
      | nil => simp [hp, fallbackOrg]
      | cons w1 tl =>
        cases tl with
        | nil => simp [hp, fallbackOrg, pyListHead]
        | cons w2 tl2 => simp [hp, fallbackOrg]
  refine ⟨h1, ?_⟩
  rw [parse_team_name_safe, h1]

/-- A cached roster row: `roster_cache(team_url PRIMARY KEY, roster_data,
timestamp)` of src/server/roster_scraper.py.  Timestamps are modelled as
seconds. -/
structure CacheRow where
  team_url : List Char
  roster_data : List Char
  cached_at : Nat
deriving DecidableEq

/-- The freshness window: `cache_duration_hours = 24`, in seconds. -/
def cacheWindow : Nat := 24 * 3600

/-- `cache_roster`: `INSERT OR REPLACE` keyed by `team_url` — remove any
row with the key, append the new row with the current time. -/
def cache_roster (db : List CacheRow) (key payload : List Char) (now : Nat) :
    List CacheRow :=
  (db.filter (fun r => !(r.team_url == key))) ++ [⟨key, payload, now⟩]

/-- `get_cached_roster`: select the row for the key; return its payload
only when `now - cached_at < cache window`, else none (also none when no
row exists). -/
def get_cached_roster (db : List CacheRow) (key : List Char) (now : Nat) :
    Option (List Char) :=
  match db.find? (fun r => r.team_url == key) with
  | some r => if now - r.cached_at < cacheWindow then some r.roster_data else none
  | none => none

/-- Filtering a key out means a later search for the key finds nothing. -/
theorem find?_filter_ne (db : List CacheRow) (key : List Char) :
    (db.filter (fun r => !(r.team_url == key))).find?
      (fun r => r.team_url == key) = none := by
  induction db with
  | nil => rfl
  | cons r rs ih =>
    cases hr : r.team_url == key with
    | true =>
      rw [List.filter_cons_of_neg (by simp [hr])]
      exact ih
    | false =>
      rw [List.filter_cons_of_pos (by simp [hr])]
      simp only [List.find?, hr]
      exact ih

/-- C2: a put followed immediately by a get for the same key returns the
same payload; a get of a record whose age reaches the 24-hour window
returns none even though the record still exists in storage; and a get
with no record returns none. -/
theorem c2_cache_contract (db : List CacheRow) (key payload : List Char) (now : Nat) :
    get_cached_roster (cache_roster db key payload now) key now = some payload
    ∧ (∀ r, db.find? (fun q => q.team_url == key) = some r →
        cacheWindow ≤ now - r.cached_at →
        get_cached_roster db key now = none)
    ∧ (db.find? (fun q => q.team_url == key) = none →
        get_cached_roster db key now = none) := by
  refine ⟨?_, ?_, ?_⟩
  · rw [get_cached_roster, cache_roster, List.find?_append, find?_filter_ne]
    have hfind : List.find? (fun r => r.team_url == key)
        [(⟨key, payload, now⟩ : CacheRow)] = some ⟨key, payload, now⟩ := by
      rw [List.find?_cons_of_pos]
      simp
    rw [hfind]
    show (if now - now < cacheWindow then some payload else none) = some payload
    rw [if_pos (by show now - now < 24 * 3600; omega)]
  · intro r hr hold
    rw [get_cached_roster, hr]
    show (if now - r.cached_at < cacheWindow then some r.roster_data else none) = none
    rw [if_neg (by omega)]
  · intro hr
    rw [get_cached_roster, hr]

/-- Witness for `c2_cache_contract`: a concrete store where a fresh put is
read back and a 0-timestamped record read at time 100000 (past the
86400-second window) yields none while still stored. -/
theorem c2_cache_witness :
    get_cached_roster
        (cache_roster [⟨str "u", str "old", 0⟩] (str "u") (str "new") 5) (str "u") 5
      = some (str "new") ∧
    get_cached_roster [⟨str "u", str "old", 0⟩] (str "u") 100000 = none ∧
    ([⟨str "u", str "old", 0⟩] : List CacheRow).find?
      (fun q => q.team_url == str "u") = some ⟨str "u", str "old", 0⟩ :=
  ⟨(c2_cache_contract [⟨str "u", str "old", 0⟩] (str "u") (str "new") 5).1,
    (c2_cache_contract [⟨str "u", str "old", 0⟩] (str "u") (str "old") 100000).2.1
      ⟨str "u", str "old", 0⟩ (by decide) (by decide),
    by decide⟩

/-- A row of the `team_database` table of
src/server/enhanced_roster_system.py (`team_id TEXT PRIMARY KEY`). -/
structure TeamDbRow where
  team_id : List Char
  team_name : List Char
  division : List Char
  classification : List Char
  affiliate_number : List Char
  affiliate_name : List Char
  team_url : List Char
  player_count : Nat
  last_scanned : List Char
deriving DecidableEq

/-- `store_team_in_db`: `INSERT OR REPLACE` keyed by `team_id` — the
conflicting row is removed and the new row inserted. -/
def store_team_in_db (db : List TeamDbRow) (t : TeamDbRow) : List TeamDbRow :=
  (db.filter (fun r => !(r.team_id == t.team_id))) ++ [t]

/-- A parsed team dict fed to `save_teams_to_database` of
src/server/coba_team_scraper.py. -/
structure ObaTeamInput where
  team_id : List Char
  team_name : List Char
  organization : Option (List Char)
  division : Option (List Char)
  level : Option (List Char)
  affiliate : List Char
deriving DecidableEq

/-- A row of the `oba_teams` table as inserted by
src/server/coba_team_scraper.py. -/
structure ObaTeamRow where
  team_id : List Char
  team_name : List Char
  organization : Option (List Char)
  division : Option (List Char)
  level : Option (List Char)
  affiliate : List Char
  has_roster : Bool
  player_count : Nat
  is_active : Bool
deriving DecidableEq

/-- One iteration of `save_teams_to_database` of coba_team_scraper.py: an
existing `team_id` is skipped ("already exists, skipping"); otherwise the
roster availability is checked (external call, passed as `check`) and a
new active row inserted. -/
def coba_save_step (check : List Char → Bool × Nat) (db : List ObaTeamRow)
    (t : ObaTeamInput) : List ObaTeamRow :=
  if db.any (fun r => r.team_id == t.team_id) then db
  else
    db ++ [⟨t.team_id, t.team_name, t.organization, t.division, t.level,
      t.affiliate, (check t.team_id).1, (check t.team_id).2, true⟩]

/-- `save_teams_to_database` of src/server/coba_team_scraper.py: fold the
per-team step over the input list. -/
def save_teams_to_database (check : List Char → Bool × Nat)
    (db : List ObaTeamRow) (teams : List ObaTeamInput) : List ObaTeamRow :=
  teams.foldl (coba_save_step check) db

/-- Rows filtered out by key are not found by a key filter. -/
theorem filter_out_then_in (l : List TeamDbRow) (k : List Char) :
    (l.filter (fun q => !(q.team_id == k))).filter (fun q => q.team_id == k) = [] := by
  induction l with
  | nil => rfl
  | cons r rs ih =>
    cases hr : r.team_id == k with
    | true =>
      rw [List.filter_cons_of_neg (by simp [hr])]
      exact ih
    | false =>
      rw [List.filter_cons_of_pos (by simp [hr]), List.filter_cons_of_neg (by simp [hr])]
      exact ih

/-- C3, counterexample to the claim as stated: `save_teams_to_database`
of coba_team_scraper.py (cited as one home of the registry upsert) skips
a `team_id` that already exists instead of updating it, so two saves with
the same id and different names leave one record carrying the first name,
not the second. -/
theorem c3_counterexample :
    save_teams_to_database (fun _ => (true, 15))
        (save_teams_to_database (fun _ => (true, 15)) []
          [⟨str "499401", str "Burlington 10U 3 A", none, none, none, str "COBA"⟩])
        [⟨str "499401", str "Burlington Renamed", none, none, none, str "COBA"⟩]
      = [⟨str "499401", str "Burlington 10U 3 A", none, none, none, str "COBA",
          true, 15, true⟩] ∧
    str "Burlington 10U 3 A" ≠ str "Burlington Renamed" := by
  refine ⟨by decide, by decide⟩

/-- C3 (amended): upserting twice with the same `team_id` leaves exactly
one stored record for that id — via `store_team_in_db` (INSERT OR
REPLACE) the surviving record is the second one, while via
coba_team_scraper's `save_teams_to_database` the second insertion is
skipped and the surviving record carries the first team's fields. -/
theorem c3_upsert_semantics :
    (∀ (db : List TeamDbRow) (r1 r2 : TeamDbRow), r1.team_id = r2.team_id →
      (store_team_in_db (store_team_in_db db r1) r2).filter
        (fun q => q.team_id == r2.team_id) = [r2]) ∧
    (∀ (check : List Char → Bool × Nat) (t1 t2 : ObaTeamInput),
      t1.team_id = t2.team_id →
      save_teams_to_database check (save_teams_to_database check [] [t1]) [t2]
        = [⟨t1.team_id, t1.team_name, t1.organization, t1.division, t1.level,
            t1.affiliate, (check t1.team_id).1, (check t1.team_id).2, true⟩]) := by
  constructor
  · intro db r1 r2 _
    show ((store_team_in_db db r1).filter (fun r => !(r.team_id == r2.team_id))
        ++ [r2]).filter (fun q => q.team_id == r2.team_id) = [r2]
    rw [List.filter_append, filter_out_then_in]
    rw [List.filter_cons_of_pos (by simp)]
    rfl
  · intro check t1 t2 hid
    have h1 : save_teams_to_database check [] [t1]
        = [⟨t1.team_id, t1.team_name, t1.organization, t1.division, t1.level,
            t1.affiliate, (check t1.team_id).1, (check t1.team_id).2, true⟩] := by
      show coba_save_step check [] t1 = _
      rw [coba_save_step, if_neg (by simp)]
      rfl
    show save_teams_to_database check (save_teams_to_database check [] [t1]) [t2] = _
    rw [h1]
    show coba_save_step check _ t2 = _
    rw [coba_save_step, if_pos (by simp [hid])]

/-- Witness for `c3_upsert_semantics` at concrete rows sharing an id. -/
theorem c3_amended_witness :
    ((store_team_in_db
        (store_team_in_db []
          ⟨str "500718", str "11U HS Forest Glade", str "11U", str "HS",
            str "2111", str "SPBA", str "u", 12, str "t1"⟩)
        ⟨str "500718", str "Forest Glade Renamed", str "11U", str "HS",
          str "2111", str "SPBA", str "u", 13, str "t2"⟩).filter
      (fun q => q.team_id == str "500718")
      = [⟨str "500718", str "Forest Glade Renamed", str "11U", str "HS",
          str "2111", str "SPBA", str "u", 13, str "t2"⟩]) ∧
    save_teams_to_database (fun _ => (true, 15))
        (save_teams_to_database (fun _ => (true, 15)) []
          [⟨str "499401", str "Burlington 10U 3 A", none, none, none, str "COBA"⟩])
        [⟨str "499401", str "Burlington Renamed", none, none, none, str "COBA"⟩]
      = [⟨str "499401", str "Burlington 10U 3 A", none, none, none, str "COBA",
          true, 15, true⟩] :=
  ⟨c3_upsert_semantics.1 []
      ⟨str "500718", str "11U HS Forest Glade", str "11U", str "HS",
        str "2111", str "SPBA", str "u", 12, str "t1"⟩
      ⟨str "500718", str "Forest Glade Renamed", str "11U", str "HS",
        str "2111", str "SPBA", str "u", 13, str "t2"⟩ rfl,
    c3_upsert_semantics.2 (fun _ => (true, 15))
      ⟨str "499401", str "Burlington 10U 3 A", none, none, none, str "COBA"⟩
      ⟨str "499401", str "Burlington Renamed", none, none, none, str "COBA"⟩ rfl⟩

/-- Python `str.lower()` (ASCII). -/
def lowerL (l : List Char) : List Char := l.map Char.toLower

/-- `s.endswith(suf)`. -/
def endsWithList (s suf : List Char) : Bool := isPrefixList suf.reverse s.reverse

/-- `a + " " + b`. -/
def joinSp (a b : List Char) : List Char := a ++ ' ' :: b

/-- `team_name.split(' - ')[0]`: everything before the first occurrence of
the three-character separator (the whole string when absent). -/
def beforeSep : List Char → List Char
  | [] => []
  | c :: cs => if isPrefixList (str " - ") (c :: cs) then [] else c :: beforeSep cs

/-- The mascot-style suffixes stripped by
`generate_team_name_variations`, in source order. -/
def common_suffixes : List (List Char) :=
  [str "Falcons", str "Eagles", str "Knights", str "Warriors", str "Tigers",
   str "Hawks", str "Cardinals", str "Blue Jays", str "Cubs"]

/-- The first suffix (in list order) that `base_name` ends with, preceded
by a space. -/
def findSuffix (name : List Char) : Option (List Char) :=
  common_suffixes.find? (fun suf => endsWithList name (' ' :: suf))

/-- Order-preserving de-duplication (`seen` set plus output list). -/
def dedupAux (seen : List (List Char)) : List (List Char) → List (List Char)
  | [] => []
  | x :: xs => if seen.contains x then dedupAux seen xs else x :: dedupAux (x :: seen) xs

/-- `generate_team_name_variations` of src/server/roster_scraper.py: the
raw name; the part before a dash separator; that with a known mascot
suffix stripped; the division-format combinations when the division
mentions 11U or 13U; de-duplicated preserving first-seen order. -/
def generate_team_name_variations (team_name division : List Char) : List (List Char) :=
  let base_name := beforeSep team_name
  let clean_name :=
    match findSuffix base_name with
    | some suf => base_name.take (base_name.length - (suf.length + 1))
    | none => base_name
  let suffixVars :=
    match findSuffix base_name with
    | some _ => [clean_name]
    | none => []
  let divVars :=
    if containsSub (str "11U") division || containsSub (str "13U") division then
      [joinSp division (joinSp (str "HS") clean_name),
       joinSp division clean_name,
       joinSp (joinSp clean_name division) (str "HS"),
       joinSp clean_name division,
       joinSp division clean_name,
       clean_name]
    else []
  dedupAux [] ([team_name, base_name] ++ suffixVars ++ divVars)

/-- `process.extractOne` (external library thefuzz, scorer passed as an
opaque function): fold keeping the first highest-scoring candidate. -/
def extractOneAux (score : List Char → List Char → Nat) (q : List Char) :
    List (List Char) → (List Char × Nat) → (List Char × Nat)
  | [], best => best
  | n :: ns, best =>
    extractOneAux score q ns (if best.2 < score q n then (n, score q n) else best)

/-- `process.extractOne` over a candidate list; none when empty. -/
def extractOne (score : List Char → List Char → Nat) (q : List Char) :
    List (List Char) → Option (List Char × Nat)
  | [] => none
  | n :: ns => some (extractOneAux score q ns (n, score q n))

/-- Python `teams[matched_name]` for a key known to be present (KeyError
cannot occur because the key is drawn from the dict's own keys). -/
def dictGet (d : List (List Char × List Char)) (k : List Char) : List Char :=
  match d.find? (fun p => p.1 == k) with
  | some p => p.2
  | none => []

/-- `find_best_team_match` of src/server/roster_scraper.py: none for an
empty dict; otherwise the extractOne winner, accepted only at similarity
at least 60. -/
def find_best_team_match (score : List Char → List Char → Nat)
    (teams : List (List Char × List Char)) (searchName : List Char) :
    Option (List Char × List Char × Nat) :=
  match extractOne score searchName (teams.map Prod.fst) with
  | none => none
  | some (n, sc) => if 60 ≤ sc then some (n, dictGet teams n, sc) else none

/-- Resolution outcome of `get_roster_with_fuzzy_match`: the
could-not-retrieve-teams failure, the no-matching-team failure carrying
`available_teams`, or a success carrying match, url, confidence and the
winning search term. -/
inductive FuzzyResult where
  | noTeams : FuzzyResult
  | noMatch (available : List (List Char)) : FuzzyResult
  | success (matched url : List Char) (confidence : Nat) (searchTerm : List Char) : FuzzyResult
deriving DecidableEq

/-- One step of the variation loop of `get_roster_with_fuzzy_match`: a
new match replaces the best only when strictly more confident (`match[2] >
best_match[2]`), so the first variation wins ties. -/
def stepBest (v : List Char) : Option (List Char × List Char × Nat) →
    Option (List Char × List Char × Nat) × List Char →
    Option (List Char × List Char × Nat) × List Char
  | some mm, (some bm, term) =>
    if bm.2.2 < mm.2.2 then (some mm, v) else (some bm, term)
  | some mm, (none, _) => (some mm, v)
  | none, acc => acc

/-- The variation loop of `get_roster_with_fuzzy_match`: keep the match
with strictly greatest confidence, first variation winning ties; the
accumulator also carries the best search term. -/
def bestOverVariations (score : List Char → List Char → Nat)
    (teams : List (List Char × List Char)) :
    List (List Char) → Option (List Char × List Char × Nat) × List Char →
      Option (List Char × List Char × Nat) × List Char
  | [], acc => acc
  | v :: vs, acc =>
    bestOverVariations score teams vs
      (stepBest v (find_best_team_match score teams v) acc)

/-- The resolution phase of `get_roster_with_fuzzy_match` after the
division teams have been retrieved. -/
def fuzzy_resolve (score : List Char → List Char → Nat)
    (teams : List (List Char × List Char)) (division team_name : List Char) :
    FuzzyResult :=
  if teams.isEmpty then FuzzyResult.noTeams
  else
    match bestOverVariations score teams
        (generate_team_name_variations team_name division) (none, team_name) with
    | (none, _) => FuzzyResult.noMatch (teams.map Prod.fst)
    | (some (mn, url, conf), term) => FuzzyResult.success mn url conf term

/-- Any match returned by `find_best_team_match` scored at least 60. -/
theorem find_best_conf (score : List Char → List Char → Nat)
    (teams : List (List Char × List Char)) (v : List Char)
    (m : List Char × List Char × Nat)
    (h : find_best_team_match score teams v = some m) : 60 ≤ m.2.2 := by
  simp only [find_best_team_match] at h
  cases he : extractOne score v (teams.map Prod.fst) with
  | none => simp only [he] at h; cases h
  | some p =>
    obtain ⟨n, sc⟩ := p
    simp only [he] at h
    by_cases hsc : 60 ≤ sc
    · rw [if_pos hsc] at h
      injection h with h'
      rw [← h']
      exact hsc
    · rw [if_neg hsc] at h
      cases h

/-- The variation loop only ever holds matches scored at least 60. -/
theorem bestOver_conf (score : List Char → List Char → Nat)
    (teams : List (List Char × List Char)) :
    ∀ (vs : List (List Char)) (acc : Option (List Char × List Char × Nat) × List Char),
      (∀ m, acc.1 = some m → 60 ≤ m.2.2) →
      ∀ m, (bestOverVariations score teams vs acc).1 = some m → 60 ≤ m.2.2 := by
  intro vs
  induction vs with
  | nil => intro acc hacc m hm; exact hacc m hm
  | cons v vs' ih =>
    intro acc hacc m hm
    rw [bestOverVariations] at hm
    refine ih _ ?_ m hm
    obtain ⟨amo, aterm⟩ := acc
    intro m' hm'
    cases hf : find_best_team_match score teams v with
    | none =>
      rw [hf, stepBest] at hm'
      exact hacc m' hm'
    | some mm =>
      cases amo with
      | none =>
        rw [hf, stepBest] at hm'
        injection hm' with h'
        rw [← h']
        exact find_best_conf score teams v mm hf
      | some bm =>
        rw [hf, stepBest] at hm'
        by_cases hlt : bm.2.2 < mm.2.2
        · rw [if_pos hlt] at hm'
          injection hm' with h'
          rw [← h']
          exact find_best_conf score teams v mm hf
        · rw [if_neg hlt] at hm'
          exact hacc m' hm'

/-- A resolve over a nonempty candidate dict never reports the
no-teams failure. -/
theorem fuzzy_resolve_ne_noTeams (score : List Char → List Char → Nat)
    (teams : List (List Char × List Char)) (division team_name : List Char)
    (hne : teams.isEmpty = false) :
    fuzzy_resolve score teams division team_name ≠ FuzzyResult.noTeams := by
  rw [fuzzy_resolve, if_neg (by simp [hne])]
  cases hbv : bestOverVariations score teams
      (generate_team_name_variations team_name division) (none, team_name) with
  | mk mo term =>
    cases mo with
    | none => intro h; cases h
    | some mm =>
      obtain ⟨mn, url, conf⟩ := mm
      intro h
      cases h

/-- C4: over a nonempty candidate set, the resolver succeeds only with a
confidence of at least the floor 60; otherwise it reports no match with
the full list of candidate names; the no-teams failure cannot occur. -/
theorem c4_confidence_floor (score : List Char → List Char → Nat)
    (teams : List (List Char × List Char)) (division team_name : List Char)
    (hne : teams ≠ []) :
    (∀ m u c s, fuzzy_resolve score teams division team_name
        = FuzzyResult.success m u c s → 60 ≤ c) ∧
    (∀ avail, fuzzy_resolve score teams division team_name
        = FuzzyResult.noMatch avail → avail = teams.map Prod.fst) ∧
    fuzzy_resolve score teams division team_name ≠ FuzzyResult.noTeams := by
  have hie : teams.isEmpty = false := by
    cases teams with
    | nil => exact absurd rfl hne
    | cons a l => rfl
  have hres : fuzzy_resolve score teams division team_name
      = match bestOverVariations score teams
          (generate_team_name_variations team_name division) (none, team_name) with
        | (none, _) => FuzzyResult.noMatch (teams.map Prod.fst)
        | (some (mn, url, conf), term) => FuzzyResult.success mn url conf term := by
    rw [fuzzy_resolve, if_neg (by simp [hie])]
  cases hbv : bestOverVariations score teams
      (generate_team_name_variations team_name division) (none, team_name) with
  | mk mo term =>
    rw [hbv] at hres
    cases mo with
    | none =>
      refine ⟨?_, ?_, ?_⟩
      · intro m u c s h
        rw [hres] at h
        cases h
      · intro avail h
        rw [hres] at h
        injection h with h'
        exact h'.symm
      · rw [hres]
        intro h
        cases h
    | some mm =>
      obtain ⟨mn, url, conf⟩ := mm
      have hconf : 60 ≤ conf := by
        have := bestOver_conf score teams
          (generate_team_name_variations team_name division) (none, team_name)
          (by intro m hm; cases hm) (mn, url, conf) (by rw [hbv])
        exact this
      refine ⟨?_, ?_, ?_⟩
      · intro m u c s h
        rw [hres] at h
        injection h with h1 h2 h3 h4
        rw [← h3]
        exact hconf
      · intro avail h
        rw [hres] at h
        cases h
      · rw [hres]
        intro h
        cases h

/-- Witness for `c4_confidence_floor` over a nonempty concrete dict. -/
theorem c4_witness :
    ([(str "11U HS Forest Glade", str "u1")] : List (List Char × List Char)) ≠ [] ∧
    ((∀ m u c s, fuzzy_resolve (fun q n => if q == n then 100 else 0)
        [(str "11U HS Forest Glade", str "u1")] (str "11U Rep")
        (str "11U HS Forest Glade") = FuzzyResult.success m u c s → 60 ≤ c) ∧
      (∀ avail, fuzzy_resolve (fun q n => if q == n then 100 else 0)
        [(str "11U HS Forest Glade", str "u1")] (str "11U Rep")
        (str "11U HS Forest Glade") = FuzzyResult.noMatch avail →
          avail = ([(str "11U HS Forest Glade", str "u1")] :
            List (List Char × List Char)).map Prod.fst) ∧
      fuzzy_resolve (fun q n => if q == n then 100 else 0)
        [(str "11U HS Forest Glade", str "u1")] (str "11U Rep")
        (str "11U HS Forest Glade") ≠ FuzzyResult.noTeams) :=
  ⟨by decide,
    c4_confidence_floor (fun q n => if q == n then 100 else 0)
      [(str "11U HS Forest Glade", str "u1")] (str "11U Rep")
      (str "11U HS Forest Glade") (by decide)⟩

/-- Python dict assignment `teams[k] = v`: update in place when the key
exists (keeping its position), else append. -/
def dictInsert (d : List (List Char × List Char)) (k v : List Char) :
    List (List Char × List Char) :=
  if d.any (fun p => p.1 == k) then
    d.map (fun p => if p.1 == k then (k, v) else p)
  else d ++ [(k, v)]

/-- The friendly-name-to-code division map of `get_division_teams`. -/
def division_map : List (List Char × List Char) :=
  [(str "11U Rep", str "11U-Rep"), (str "13U Rep", str "13U-Rep"),
   (str "15U Rep", str "15U-Rep"), (str "18U Rep", str "18U-Rep"),
   (str "11U HS", str "11U-HS"), (str "13U HS", str "13U-HS"),
   (str "15U HS", str "15U-HS"), (str "18U HS", str "18U-HS")]

/-- The affiliate-to-URL-slug map of `get_division_teams`. -/
def affiliate_slug_map : List (List Char × List Char) :=
  [(str "Sun Parlour", str "sun-parlour"), (str "Windsor", str "windsor"),
   (str "Essex", str "essex"), (str "Chatham-Kent", str "chatham-kent")]

/-- The affiliate-name-to-OBA-number map of the scraper constructor. -/
def affiliate_number_map : List (List Char × List Char) :=
  [(str "Sun Parlour", str "2111"), (str "SPBA", str "2111")]

/-- Python `d.get(k, deflt)`. -/
def mapGetD (d : List (List Char × List Char)) (k deflt : List Char) : List Char :=
  match d.find? (fun p => p.1 == k) with
  | some p => p.2
  | none => deflt

/-- `get_affiliate_number`: look the name up, defaulting to Sun Parlour's
number 2111. -/
def get_affiliate_number (affiliate : List Char) : List Char :=
  mapGetD affiliate_number_map affiliate (str "2111")

/-- URL building of the link loop of `get_division_teams`. -/
def buildFullUrl (href : List Char) : List Char :=
  if isPrefixList (str "/") href then str "https://playoba.ca" ++ href
  else if isPrefixList (str "http") href then href
  else str "https://playoba.ca/stats/" ++ href

/-- One link of the scrape loop of `get_division_teams`: keep the link
when the division code appears (case-insensitively) in the link text or
href and the affiliate code does too. -/
def linkStep (division_code affiliate_code : List Char)
    (teams : List (List Char × List Char)) (link : List Char × List Char) :
    List (List Char × List Char) :=
  if (containsSub (lowerL division_code) (lowerL (strip link.2))
      || containsSub (lowerL division_code) (lowerL link.1))
    && (containsSub affiliate_code (lowerL (strip link.2))
      || containsSub affiliate_code (lowerL link.1)) then
    dictInsert teams (strip link.2) (buildFullUrl link.1)
  else teams

/-- The scraping phase of `get_division_teams`: the links of the fetched
page are supplied as (href, text) pairs; `none` stands for a network
failure, whose exception is caught leaving the dict empty. -/
def scrapeTeams (links : Option (List (List Char × List Char)))
    (affiliate division : List Char) : List (List Char × List Char) :=
  match links with
  | none => []
  | some ls =>
    ls.foldl
      (linkStep (mapGetD division_map division division)
        (mapGetD affiliate_slug_map affiliate (lowerL affiliate))) []

/-- Roster URL construction of the fallback team lists. -/
def mkTeamUrl (aff id : List Char) : List Char :=
  str "https://www.playoba.ca/stats" ++ str "#/" ++ aff ++ str "/team/"
    ++ id ++ str "/roster"

/-- The hardcoded 11U fallback team dict of `get_division_teams`. -/
def fallback11U (aff : List Char) : List (List Char × List Char) :=
  [(str "11U HS Belle River", mkTeamUrl aff (str "500719")),
   (str "11U HS Forest Glade", mkTeamUrl aff (str "500718")),
   (str "11U HS Kingsville", mkTeamUrl aff (str "500720")),
   (str "11U HS Ottawa Petro Canada", mkTeamUrl aff (str "500721")),
   (str "11U HS Pickering", mkTeamUrl aff (str "500722")),
   (str "11U HS Niagara Falls", mkTeamUrl aff (str "500723")),
   (str "11U HS Chatham-Kent", mkTeamUrl aff (str "500724")),
   (str "11U HS Mississauga", mkTeamUrl aff (str "500725")),
   (str "11U HS The Park 9", mkTeamUrl aff (str "500726")),
   (str "11U HS Guelph", mkTeamUrl aff (str "500727")),
   (str "11U HS Sarnia Brigade", mkTeamUrl aff (str "500730")),
   (str "11U HS London Scorpions", mkTeamUrl aff (str "500731")),
   (str "11U HS London Scripions", mkTeamUrl aff (str "500731")),
   (str "11U HS Royals", mkTeamUrl aff (str "500732")),
   (str "11U HS London Nationals", mkTeamUrl aff (str "500733")),
   (str "Sarnia Brigade U11", mkTeamUrl aff (str "500730")),
   (str "Royals U11", mkTeamUrl aff (str "500732")),
   (str "London Nationals 11U", mkTeamUrl aff (str "500733"))]

/-- The hardcoded 13U fallback team dict of `get_division_teams`. -/
def fallback13U (aff : List Char) : List (List Char × List Char) :=
  [(str "Durham Crushers - 13U", mkTeamUrl aff (str "500800")),
   (str "Etobicoke Rangers - 13U", mkTeamUrl aff (str "500801")),
   (str "Forest Glade Falcons - 13U Rep", mkTeamUrl aff (str "500802")),
   (str "Milton Mets - 13U", mkTeamUrl aff (str "500803")),
   (str "Mississauga Twins - 13U", mkTeamUrl aff (str "500804")),
   (str "East Mountain Cobras - 13U", mkTeamUrl aff (str "500805")),
   (str "Toronto Blues - 13U", mkTeamUrl aff (str "500806")),
   (str "London Tecumsehs - 13U", mkTeamUrl aff (str "500807")),
   (str "Ottawa Valley Crushers - 13U", mkTeamUrl aff (str "500808")),
   (str "Burlington Bulls - 13U", mkTeamUrl aff (str "500809")),
   (str "13U HS South Woodslee Orioles", mkTeamUrl aff (str "500810")),
   (str "13U HS East Mountain Cobras", mkTeamUrl aff (str "500805")),
   (str "South Woodslee Orioles 13U", mkTeamUrl aff (str "500810")),
   (str "East Mountain Cobras U13", mkTeamUrl aff (str "500805"))]

/-- The hardcoded fallback team dict for any other division. -/
def fallbackOtherTeams : List (List Char × List Char) :=
  [(str "Tecumseh Eagles - Minor Bantam",
      str "https://www.playoba.ca/stats/tecumseh-eagles-15u"),
   (str "Windsor Selects - 15U",
      str "https://www.playoba.ca/stats/windsor-selects-15u"),
   (str "LaSalle Athletics - 15U Rep",
      str "https://www.playoba.ca/stats/lasalle-athletics-15u")]

/-- `get_division_teams` of src/server/roster_scraper.py: scrape and
filter the page links; when that yields no teams, substitute the
hardcoded fallback dict chosen by the division name. -/
def get_division_teams (links : Option (List (List Char × List Char)))
    (affiliate season division : List Char) : List (List Char × List Char) :=
  if (scrapeTeams links affiliate division).isEmpty then
    if containsSub (str "11U") division then
      fallback11U (get_affiliate_number affiliate)
    else if containsSub (str "13U") division then
      fallback13U (get_affiliate_number affiliate)
    else fallbackOtherTeams
  else scrapeTeams links affiliate division

/-- `get_roster_with_fuzzy_match` of src/server/roster_scraper.py:
retrieve the division teams, then resolve the name fuzzily. -/
def get_roster_with_fuzzy_match (score : List Char → List Char → Nat)
    (links : Option (List (List Char × List Char)))
    (affiliate season division team_name : List Char) : FuzzyResult :=
  fuzzy_resolve score (get_division_teams links affiliate season division)
    division team_name

/-- C10: for every network outcome and every affiliate, season and
division, `get_division_teams` returns a nonempty dict (the hardcoded
fallback replaces an empty scrape), so the could-not-retrieve-teams
branch of `get_roster_with_fuzzy_match` is unreachable. -/
theorem c10_division_teams_nonempty (links : Option (List (List Char × List Char)))
    (score : List Char → List Char → Nat)
    (affiliate season division team_name : List Char) :
    get_division_teams links affiliate season division ≠ [] ∧
    get_roster_with_fuzzy_match score links affiliate season division team_name
      ≠ FuzzyResult.noTeams := by
  have h1 : get_division_teams links affiliate season division ≠ [] := by
    rw [get_division_teams]
    split_ifs with hemp h11 h13
    · simp [fallback11U]
    · simp [fallback13U]
    · simp [fallbackOtherTeams]
    · intro h0
      rw [h0] at hemp
      exact hemp rfl
  refine ⟨h1, ?_⟩
  rw [get_roster_with_fuzzy_match]
  apply fuzzy_resolve_ne_noTeams
  cases hgd : get_division_teams links affiliate season division with
  | nil => exact absurd hgd h1
  | cons a l => rfl

/-- The regex class for uppercase ASCII letters. -/
def isUpperAZ (c : Char) : Bool := 'A' ≤ c && c ≤ 'Z'

/-- The regex class for lowercase ASCII letters. -/
def isLowerAZ (c : Char) : Bool := 'a' ≤ c && c ≤ 'z'

/-- Case-insensitive prefix test (`re.IGNORECASE`). -/
def isPrefixCI : List Char → List Char → Bool
  | [], _ => true
  | _ :: _, [] => false
  | a :: as, b :: bs => (a.toLower = b.toLower) && isPrefixCI as bs

/-- One position of the first team-name pattern (an h1 element: `<h1`,
any non-`>` run, `>`, a nonempty non-`<` group, `</h1>`,
case-insensitive).  The greedy runs admit no backtracking because each is
followed by a character excluded from the run. -/
def h1At (s : List Char) : Option (List Char) :=
  if isPrefixCI (str "<h1") s then
    match (s.drop 3).drop ((s.drop 3).takeWhile (fun c => !(c = '>'))).length with
    | '>' :: r2 =>
      if !(r2.takeWhile (fun c => !(c = '<'))).isEmpty
          && isPrefixCI (str "</h1>")
            (r2.drop (r2.takeWhile (fun c => !(c = '<'))).length) then
        some (r2.takeWhile (fun c => !(c = '<')))
      else none
    | _ => none
  else none

/-- One position of the second team-name pattern: `>`, `#`, a space, then
a nonempty run without comma or newline. -/
def hashAt (s : List Char) : Option (List Char) :=
  match s with
  | '>' :: '#' :: ' ' :: r =>
    if !(r.takeWhile (fun c => !(c = ',') && !(c = '\n'))).isEmpty then
      some (r.takeWhile (fun c => !(c = ',') && !(c = '\n')))
    else none
  | _ => none

/-- One position of the third team-name pattern (the title element,
case-insensitive). -/
def titleAt (s : List Char) : Option (List Char) :=
  if isPrefixCI (str "<title>") s then
    if !((s.drop 7).takeWhile (fun c => !(c = '<'))).isEmpty
        && isPrefixCI (str "</title>")
          ((s.drop 7).drop ((s.drop 7).takeWhile (fun c => !(c = '<'))).length) then
      some ((s.drop 7).takeWhile (fun c => !(c = '<')))
    else none
  else none

/-- `re.search` for a group-returning pattern: first matching position
wins. -/
def searchPat (f : List Char → Option (List Char)) : List Char → Option (List Char)
  | [] => none
  | c :: cs =>
    match f (c :: cs) with
    | some g => some g
    | none => searchPat f cs

/-- The generic site title rejected as a team name. -/
def badTitle : List Char := str "Stats - Ontario Baseball"

/-- The pattern loop of the team-name extraction: starting from `Unknown
Team`, each matching pattern replaces the current name (stripped); the
loop stops at the first name not containing the generic site title. -/
def pickTeamName : List (Option (List Char)) → List Char → List Char
  | [], cur => cur
  | none :: rest, cur => pickTeamName rest cur
  | some g :: rest, _ =>
    if containsSub badTitle (strip g) then pickTeamName rest (strip g)
    else strip g

/-- The team-name extraction of `fetch_live_roster`: the three patterns in
source order. -/
def extractTeamName (content : List Char) : List Char :=
  pickTeamName
    [searchPat h1At content, searchPat hashAt content, searchPat titleAt content]
    (str "Unknown Team")

/-- The literal URL part before the player id in the player-link
pattern. -/
def playerUrlPre : List Char := str "(https://www.playoba.ca/stats#/player/"

/-- The literal URL part after the player id in the player-link
pattern. -/
def playerUrlSuf : List Char := str "/bio)"

/-- One position of the player-link pattern: a bracketed group
(capitalized word, space, capitalized word, then any non-`]` run)
followed by a player-bio link with a nonempty id.  Returns the group and
the remainder after the whole match (for non-overlapping `findall`). -/
def playerMatchAt (s : List Char) : Option (List Char × List Char) :=
  match s with
  | '[' :: c1 :: rest1 =>
    if isUpperAZ c1 then
      if (rest1.takeWhile isLowerAZ).isEmpty then none
      else
        match rest1.drop (rest1.takeWhile isLowerAZ).length with
        | ' ' :: c2 :: r4 =>
          if isUpperAZ c2 then
            if (r4.takeWhile isLowerAZ).isEmpty then none
            else
              match (r4.drop (r4.takeWhile isLowerAZ).length).drop
                  ((r4.drop (r4.takeWhile isLowerAZ).length).takeWhile
                    (fun d => !(d = ']'))).length with
              | ']' :: r7 =>
                if isPrefixList playerUrlPre r7 then
                  if ((r7.drop playerUrlPre.length).takeWhile Char.isDigit).isEmpty then
                    none
                  else if isPrefixList playerUrlSuf
                      ((r7.drop playerUrlPre.length).drop
                        ((r7.drop playerUrlPre.length).takeWhile Char.isDigit).length) then
                    some (c1 :: rest1.takeWhile isLowerAZ
                        ++ ' ' :: c2 :: r4.takeWhile isLowerAZ
                        ++ (r4.drop (r4.takeWhile isLowerAZ).length).takeWhile
                            (fun d => !(d = ']')),
                      ((r7.drop playerUrlPre.length).drop
                        ((r7.drop playerUrlPre.length).takeWhile Char.isDigit).length).drop
                        playerUrlSuf.length)
                  else none
                else none
              | _ => none
          else none
        | _ => none
    else none
  | _ => none

/-- `re.findall` for the player pattern: non-overlapping scan, continuing
after each match; fuelled by the input length, which bounds the number of
positions visited. -/
def findPlayersAux : Nat → List Char → List (List Char)
  | 0, _ => []
  | _ + 1, [] => []
  | fuel + 1, c :: cs =>
    match playerMatchAt (c :: cs) with
    | some (g, rest) => g :: findPlayersAux fuel rest
    | none => findPlayersAux fuel cs

/-- All player-pattern matches of the page, in order. -/
def findAllPlayers (s : List Char) : List (List Char) := findPlayersAux s.length s

/-- A roster entry: generated number and player name. -/
structure Player where
  number : List Char
  name : List Char
deriving DecidableEq

/-- Decimal rendering of a number (`str(i)`). -/
def natToStr (n : Nat) : List Char := (Nat.repr n).data

/-- Does the name start with an uppercase letter (`clean_name[0].isupper()`,
guarded by nonemptiness)? -/
def firstUpper (l : List Char) : Bool :=
  match l with
  | [] => false
  | c :: _ => isUpperAZ c

/-- The denylisted navigational words of the player filter. -/
def denyWords : List (List Char) := [str "skip", str "content", str "tournament"]

/-- The per-candidate filter of `fetch_live_roster`: nonempty, not yet
seen (exact match), at least two whitespace-separated tokens, uppercase
first character, and no denylisted word as a lowercase substring. -/
def keepPlayer (seen : List (List Char)) (clean : List Char) : Bool :=
  !clean.isEmpty && !(seen.contains clean)
    && decide (2 ≤ (wordsAux clean []).length)
    && firstUpper clean
    && !(denyWords.any (fun w => containsSub w (lowerL clean)))

/-- The filter loop of `fetch_live_roster`: `i` enumerates the raw
matches starting at 1 and becomes the kept player's number — it advances
on every raw match, kept or not. -/
def filterPlayersAux (seen : List (List Char)) (i : Nat) :
    List (List Char) → List Player
  | [] => []
  | nm :: rest =>
    if keepPlayer seen (strip nm) then
      ⟨natToStr i, strip nm⟩ :: filterPlayersAux (strip nm :: seen) (i + 1) rest
    else filterPlayersAux seen (i + 1) rest

/-- The validated players of a page. -/
def filterPlayers (raw : List (List Char)) : List Player :=
  filterPlayersAux [] 1 raw

/-- The roster record returned by `fetch_live_roster`. -/
structure LiveRoster where
  team_url : List Char
  team_name : List Char
  players : List Player
  scraped_at : Nat
  authentic_data : Bool
  method : List Char
deriving DecidableEq

/-- `fetch_live_roster` of src/server/enhanced_roster_system.py, with the
curl transport supplied as a parameter (`none` for a failed call, and an
empty stdout is treated as failure): parse the team name, extract and
filter players, and return a roster only when at least one player
survives. -/
def fetch_live_roster (curlOutput : Option (List Char)) (team_url : List Char)
    (now : Nat) : Option LiveRoster :=
  match curlOutput with
  | none => none
  | some html =>
    if html.isEmpty then none
    else if (filterPlayers (findAllPlayers html)).isEmpty then none
    else some ⟨team_url, extractTeamName html, filterPlayers (findAllPlayers html),
      now, true, str "live_web_scraping"⟩

/-- Characterisation of a successful fetch: the page was nonempty, the
filter kept at least one player, and the roster is exactly the parsed
record. -/
theorem fetch_some_eq (html team_url : List Char) (now : Nat) (r : LiveRoster)
    (h : fetch_live_roster (some html) team_url now = some r) :
    html.isEmpty = false ∧
    (filterPlayers (findAllPlayers html)).isEmpty = false ∧
    r = ⟨team_url, extractTeamName html, filterPlayers (findAllPlayers html),
      now, true, str "live_web_scraping"⟩ := by
  rw [fetch_live_roster] at h
  cases hie : html.isEmpty with
  | true => rw [if_pos hie] at h; cases h
  | false =>
    rw [if_neg (by rw [hie]; exact Bool.false_ne_true)] at h
    cases hfe : (filterPlayers (findAllPlayers html)).isEmpty with
    | true => rw [if_pos hfe] at h; cases h
    | false =>
      rw [if_neg (by rw [hfe]; exact Bool.false_ne_true)] at h
      injection h with h'
      exact ⟨rfl, rfl, h'.symm⟩

/-- C5: for every page content, the fetcher returns the null result
exactly when zero player candidates survive the filtering; when at least
one survives, it returns a structured roster carrying the extracted team
name, the surviving players and the fetch timestamp. -/
theorem c5_fetch_null_iff (html team_url : List Char) (now : Nat)
    (hne : html ≠ []) :
    (fetch_live_roster (some html) team_url now = none ↔
      filterPlayers (findAllPlayers html) = []) ∧
    ∀ r, fetch_live_roster (some html) team_url now = some r →
      r.team_name = extractTeamName html ∧
      r.players = filterPlayers (findAllPlayers html) ∧
      r.players ≠ [] ∧ r.scraped_at = now ∧ r.team_url = team_url := by
  have hie : html.isEmpty = false := by
    cases html with
    | nil => exact absurd rfl hne
    | cons a l => rfl
  constructor
  · constructor
    · intro h
      rw [fetch_live_roster, if_neg (by rw [hie]; exact Bool.false_ne_true)] at h
      cases hfe : (filterPlayers (findAllPlayers html)).isEmpty with
      | true =>
        cases hl : filterPlayers (findAllPlayers html) with
        | nil => rfl
        | cons p ps => rw [hl] at hfe; cases hfe
      | false =>
        rw [if_neg (by rw [hfe]; exact Bool.false_ne_true)] at h
        cases h
    · intro h
      rw [fetch_live_roster, if_neg (by rw [hie]; exact Bool.false_ne_true),
        if_pos (by rw [h]; rfl)]
  · intro r hr
    obtain ⟨-, hfe, hr'⟩ := fetch_some_eq html team_url now r hr
    rw [hr']
    refine ⟨rfl, rfl, ?_, rfl, rfl⟩
    intro h0
    have h1 : filterPlayers (findAllPlayers html) = [] := h0
    rw [h1] at hfe
    cases hfe

/-- Witness for `c5_fetch_null_iff` on a concrete page with one player
link: the fetch succeeds with the parsed team name and player. -/
theorem c5_witness :
    str "<h1>Forest Glade</h1>[John Smith](https://www.playoba.ca/stats#/player/123/bio)"
      ≠ [] ∧
    fetch_live_roster
        (some (str "<h1>Forest Glade</h1>[John Smith](https://www.playoba.ca/stats#/player/123/bio)"))
        (str "u") 7
      = some ⟨str "u", str "Forest Glade", [⟨str "1", str "John Smith"⟩], 7, true,
          str "live_web_scraping"⟩ ∧
    ((fetch_live_roster
        (some (str "<h1>Forest Glade</h1>[John Smith](https://www.playoba.ca/stats#/player/123/bio)"))
        (str "u") 7 = none ↔
      filterPlayers (findAllPlayers
        (str "<h1>Forest Glade</h1>[John Smith](https://www.playoba.ca/stats#/player/123/bio)"))
        = []) ∧
    ∀ r, fetch_live_roster
        (some (str "<h1>Forest Glade</h1>[John Smith](https://www.playoba.ca/stats#/player/123/bio)"))
        (str "u") 7 = some r →
      r.team_name = extractTeamName
        (str "<h1>Forest Glade</h1>[John Smith](https://www.playoba.ca/stats#/player/123/bio)") ∧
      r.players = filterPlayers (findAllPlayers
        (str "<h1>Forest Glade</h1>[John Smith](https://www.playoba.ca/stats#/player/123/bio)")) ∧
      r.players ≠ [] ∧ r.scraped_at = 7 ∧ r.team_url = str "u") :=
  ⟨by decide, by decide,
    c5_fetch_null_iff
      (str "<h1>Forest Glade</h1>[John Smith](https://www.playoba.ca/stats#/player/123/bio)")
      (str "u") 7 (by decide)⟩

/-- The filter loop produces pairwise-distinct names, never a name from
`seen`, and every kept name passes the token-count and first-letter
checks. -/
theorem filterAux_names : ∀ (raw seen : List (List Char)) (i : Nat),
    ((filterPlayersAux seen i raw).map Player.name).Pairwise (· ≠ ·) ∧
    ∀ p ∈ filterPlayersAux seen i raw,
      seen.contains p.name = false ∧ 2 ≤ (wordsAux p.name []).length ∧
        firstUpper p.name = true := by
  intro raw
  induction raw with
  | nil =>
    intro seen i
    exact ⟨List.Pairwise.nil, by intro p hp; cases hp⟩
  | cons nm rest ih =>
    intro seen i
    rw [filterPlayersAux]
    cases hk : keepPlayer seen (strip nm) with
    | false =>
      rw [if_neg Bool.false_ne_true]
      exact ih seen (i + 1)
    | true =>
      rw [if_pos rfl]
      obtain ⟨ihp, ihm⟩ := ih (strip nm :: seen) (i + 1)
      have hks := hk
      simp only [keepPlayer, Bool.and_eq_true, Bool.not_eq_true',
        decide_eq_true_eq] at hks
      obtain ⟨⟨⟨⟨-, hseen⟩, hlen⟩, hupper⟩, -⟩ := hks
      constructor
      · rw [List.map_cons]
        apply List.Pairwise.cons
        · intro b hb
          obtain ⟨p, hp, hpb⟩ := List.mem_map.mp hb
          have hcont := (ihm p hp).1
          have hbe : (p.name == strip nm) = false := by
            cases hbe : p.name == strip nm with
            | false => rfl
            | true =>
              exfalso
              rw [show ((strip nm :: seen).contains p.name)
                  = ((p.name == strip nm) || seen.contains p.name) from rfl,
                hbe] at hcont
              cases hcont
          intro hEq
          have hEq' : strip nm = b := hEq
          rw [hpb, ← hEq'] at hbe
          simp at hbe
        · exact ihp
      · intro p hp
        rcases List.mem_cons.mp hp with hpe | hp
        · rw [hpe]
          exact ⟨hseen, hlen, hupper⟩
        · have hcont := (ihm p hp).1
          rw [show ((strip nm :: seen).contains p.name)
              = ((p.name == strip nm) || seen.contains p.name) from rfl] at hcont
          have := Bool.or_eq_false_iff.mp hcont
          exact ⟨this.2, (ihm p hp).2.1, (ihm p hp).2.2⟩

/-- The numbers produced by the filter loop are the decimal renderings of
a strictly increasing sequence of raw-match indices starting at `i`: the
number of each kept player is the 1-based position of its own raw match,
so filtered-out candidates leave gaps. -/
theorem filterAux_numbers : ∀ (raw : List (List Char)) (seen : List (List Char)) (i : Nat),
    ∃ idxs : List Nat,
      (filterPlayersAux seen i raw).map Player.number = idxs.map natToStr ∧
      idxs.Pairwise (· < ·) ∧ (∀ j ∈ idxs, i ≤ j) ∧
      ∀ p ∈ filterPlayersAux seen i raw, ∃ k nm,
        (raw.drop k).head? = some nm ∧ strip nm = p.name ∧
          p.number = natToStr (i + k) := by
  intro raw
  induction raw with
  | nil =>
    intro seen i
    refine ⟨[], rfl, List.Pairwise.nil, ?_, ?_⟩
    · intro j hj
      cases hj
    · intro p hp
      cases hp
  | cons nm rest ih =>
    intro seen i
    rw [filterPlayersAux]
    cases hk : keepPlayer seen (strip nm) with
    | true =>
      rw [if_pos rfl]
      obtain ⟨idxs, hmap, hpw, hge, hpos⟩ := ih (strip nm :: seen) (i + 1)
      refine ⟨i :: idxs, ?_, ?_, ?_, ?_⟩
      · rw [List.map_cons, List.map_cons, hmap]
      · apply List.Pairwise.cons
        · intro j hj
          have := hge j hj
          omega
        · exact hpw
      · intro j hj
        rcases List.mem_cons.mp hj with rfl | hj
        · exact Nat.le_refl _
        · have := hge j hj
          omega
      · intro p hp
        rcases List.mem_cons.mp hp with hpe | hp
        · refine ⟨0, nm, rfl, ?_, ?_⟩
          · rw [hpe]
          · rw [hpe, Nat.add_zero]
        · obtain ⟨k, w, hw, hst, hnum⟩ := hpos p hp
          refine ⟨k + 1, w, ?_, hst, ?_⟩
          · rw [List.drop_succ_cons]
            exact hw
          · rw [hnum]
            congr 1
            omega
    | false =>
      rw [if_neg Bool.false_ne_true]
      obtain ⟨idxs, hmap, hpw, hge, hpos⟩ := ih seen (i + 1)
      refine ⟨idxs, hmap, hpw, ?_, ?_⟩
      · intro j hj
        have := hge j hj
        omega
      · intro p hp
        obtain ⟨k, w, hw, hst, hnum⟩ := hpos p hp
        refine ⟨k + 1, w, ?_, hst, ?_⟩
        · rw [List.drop_succ_cons]
          exact hw
        · rw [hnum]
          congr 1
          omega

/-- C7, counterexample to the claim as stated: with a filtered-out first
candidate (`Skip Johnson` contains a denylisted word), the surviving
single player carries number `2`, not `1`, because numbers index the raw
match sequence; moreover its name has the token `jr`, which does not
start with an uppercase letter. -/
theorem c7_counterexample :
    fetch_live_roster
        (some (str "[Skip Johnson](https://www.playoba.ca/stats#/player/1/bio)[John Smith jr](https://www.playoba.ca/stats#/player/2/bio)"))
        (str "u") 0
      = some ⟨str "u", str "Unknown Team", [⟨str "2", str "John Smith jr"⟩], 0,
          true, str "live_web_scraping"⟩ ∧
    str "2" ≠ str "1" ∧
    (wordsAux (str "John Smith jr") []).length = 3 ∧
    firstUpper (str "jr") = false := by
  refine ⟨by decide, by decide, by decide, by decide⟩

/-- C7 (amended): every roster returned by the fetcher has
pairwise-distinct (case-sensitive) player names; each name has at least
two whitespace-separated tokens and begins with an uppercase letter
(tokens beyond the first need not be capitalized); and each player's
number is the decimal 1-based index of its own match in the raw extracted
sequence — the numbers are strictly increasing but may skip the indices
of filtered-out candidates. -/
theorem c7_roster_invariants (html team_url : List Char) (now : Nat) (r : LiveRoster)
    (h : fetch_live_roster (some html) team_url now = some r) :
    (r.players.map Player.name).Pairwise (· ≠ ·) ∧
    (∀ p ∈ r.players, 2 ≤ (wordsAux p.name []).length ∧ firstUpper p.name = true) ∧
    ∃ idxs : List Nat, r.players.map Player.number = idxs.map natToStr ∧
      idxs.Pairwise (· < ·) ∧ (∀ j ∈ idxs, 1 ≤ j) ∧
      ∀ p ∈ r.players, ∃ k nm, ((findAllPlayers html).drop k).head? = some nm ∧
        strip nm = p.name ∧ p.number = natToStr (1 + k) := by
  obtain ⟨-, -, hr⟩ := fetch_some_eq html team_url now r h
  have hpl : r.players = filterPlayers (findAllPlayers html) := by rw [hr]
  rw [hpl]
  obtain ⟨hpw, hcond⟩ := filterAux_names (findAllPlayers html) [] 1
  obtain ⟨idxs, hmap, hipw, hge, hpos⟩ := filterAux_numbers (findAllPlayers html) [] 1
  exact ⟨hpw, fun p hp => ⟨(hcond p hp).2.1, (hcond p hp).2.2⟩,
    idxs, hmap, hipw, hge, hpos⟩

/-- Witness for `c7_roster_invariants` on the one-player page of
`c5_witness`. -/
theorem c7_amended_witness :
    (((⟨str "u", str "Forest Glade", [⟨str "1", str "John Smith"⟩], 7, true,
        str "live_web_scraping"⟩ : LiveRoster).players.map Player.name).Pairwise (· ≠ ·)) ∧
    (∀ p ∈ (⟨str "u", str "Forest Glade", [⟨str "1", str "John Smith"⟩], 7, true,
        str "live_web_scraping"⟩ : LiveRoster).players,
      2 ≤ (wordsAux p.name []).length ∧ firstUpper p.name = true) ∧
    ∃ idxs : List Nat,
      ((⟨str "u", str "Forest Glade", [⟨str "1", str "John Smith"⟩], 7, true,
        str "live_web_scraping"⟩ : LiveRoster).players.map Player.number)
          = idxs.map natToStr ∧
      idxs.Pairwise (· < ·) ∧ (∀ j ∈ idxs, 1 ≤ j) ∧
      ∀ p ∈ (⟨str "u", str "Forest Glade", [⟨str "1", str "John Smith"⟩], 7, true,
          str "live_web_scraping"⟩ : LiveRoster).players,
        ∃ k nm, ((findAllPlayers
            (str "<h1>Forest Glade</h1>[John Smith](https://www.playoba.ca/stats#/player/123/bio)")).drop
              k).head? = some nm ∧
          strip nm = p.name ∧ p.number = natToStr (1 + k) :=
  c7_roster_invariants
    (str "<h1>Forest Glade</h1>[John Smith](https://www.playoba.ca/stats#/player/123/bio)")
    (str "u") 7
    ⟨str "u", str "Forest Glade", [⟨str "1", str "John Smith"⟩], 7, true,
      str "live_web_scraping"⟩
    (by decide)

example : findAllPlayers (str "[John Smith](https://www.playoba.ca/stats#/player/123/bio)")
    = [str "John Smith"] := by decide
example : filterPlayers [str "John Smith", str "skip content", str "A"]
    = [⟨str "1", str "John Smith"⟩] := by decide
example : extractTeamName (str "<h1>Forest Glade</h1>x") = str "Forest Glade" := by decide
example : extractTeamName (str "no markup here") = str "Unknown Team" := by decide
example : extractTeamName (str "<title>Stats - Ontario Baseball</title> ># My Team, x")
    = str "My Team" := by decide
example : filterPlayers [str "John Smith", str "John Smith", str "Jane Doe"]
    = [⟨str "1", str "John Smith"⟩, ⟨str "3", str "Jane Doe"⟩] := by decide
example : findAllPlayers (str "[Skip Johnson](https://www.playoba.ca/stats#/player/1/bio)[John Smith jr](https://www.playoba.ca/stats#/player/2/bio)")
    = [str "Skip Johnson", str "John Smith jr"] := by decide
example : filterPlayers [str "Skip Johnson", str "John Smith jr"]
    = [⟨str "2", str "John Smith jr"⟩] := by decide
example : extractTeamName (str "<H1 class='x'>Team A</H1>y") = str "Team A" := by decide
example : findAllPlayers (str "[Ab Cd ef-gh](https://www.playoba.ca/stats#/player/9/bio)")
    = [str "Ab Cd ef-gh"] := by decide
example : findAllPlayers (str "[J Smith](https://www.playoba.ca/stats#/player/1/bio)") = [] := by decide
example : findAllPlayers (str "[John Smith](https://www.playoba.ca/stats#/player/x/bio)") = [] := by decide
example : findAllPlayers (str "[John Smith] (https://www.playoba.ca/stats#/player/1/bio)") = [] := by decide
example : extractTeamName (str "<h1></h1><title>T U</title>") = str "T U" := by decide
example : parse_team_name (str "Burlington 10U 3 A") =
    ⟨some (str "Burlington"), some (str "10U"), some (str "A")⟩ := by decide
example : parse_team_name (str "Miss SW 10U AA") =
    ⟨some (str "Miss SW"), some (str "10U"), some (str "AA")⟩ := by decide
example : parse_team_name (str "Brampton 10U AAA") =
    ⟨some (str "Brampton"), some (str "10U"), some (str "AAA")⟩ := by decide
example : parse_team_name (str "Mississauga North Senior A") =
    ⟨some (str "Mississauga North"), some seniorTok, some (str "A")⟩ := by decide
example : parse_team_name (str "[Rep] Oakville 11U AA") =
    ⟨some (str "Oakville"), some (str "11U"), some (str "AA")⟩ := by decide
example : (parse_team_name (str "A Team AAA")).level = some (str "A") := by decide
example : (parse_team_name (str "Mississauga 123U AA")).division = some (str "123U") := by decide
example : (parse_team_name (str "[Rep] [Rep] foo")).organization = some (str "[Rep] foo") := by decide
example : (parse_team_name (str "Halton Hills")).organization = some (str "Halton Hills") := by decide
example : (parse_team_name (str "10U Rep")).organization = none := by decide
example : parse_team_name (str "AA AAA") = ⟨some (str "AA AAA"), none, some (str "AA")⟩ := by decide
example : parse_team_name (str "DS team") = ⟨some (str "DS team"), none, some (str "DS")⟩ := by decide
example : parse_team_name (str "a12U x") = ⟨some (str "a12U x"), none, none⟩ := by decide
example : parse_team_name (str "12U3U") = ⟨some (str "12U3U"), none, none⟩ := by decide
example : parse_team_name (str "10U Boys 10U A") = ⟨some (str "10U Boys"), some (str "10U"), some (str "A")⟩ := by decide
example : parse_team_name (str "a \n10U") = ⟨some (str "a"), some (str "10U"), none⟩ := by decide
example : parse_team_name (str "a\nb 10U") = ⟨none, some (str "10U"), none⟩ := by decide
example : parse_team_name (str "") = ⟨none, none, none⟩ := by decide
example : parse_team_name (str " x ") = ⟨some (str "x"), none, none⟩ := by decide
example : parse_team_name (str "[Rep]") = ⟨none, none, none⟩ := by decide
